import Mathlib

/-!
# Verification of the crawler core of `scraper.py`

This file gives a shallow embedding, in Lean 4, of the crawl engine and
content-extraction pipeline of the repository's `scraper.py`, and proves (or
refutes) the frozen claims about it.

Conventions of the embedding:

* Python strings are Lean `String`s; character-level work happens on
  `List Char` via `String.data`/`String.mk`.  `str.strip()`, `str.rstrip('/')`,
  `str.lower()` (ASCII fragment), `str.count`, `str.replace` and
  `str.startswith` are modelled explicitly below.
* `urllib.parse.urlparse` is modelled by `urlparse` below, following the
  CPython implementation (scheme detection, `//`-netloc splitting, fragment
  and query splitting, params splitting for schemes that use them, removal of
  tab/CR/LF characters).  The model covers inputs on which CPython does not
  raise (i.e. URLs without bracketed hosts); validation-only code paths that
  can raise `ValueError` are not modelled.
* The network is abstracted as an *input graph* `Web`: a function from a URL
  string to `none` (fetch/extraction failure) or `some (title, content,
  links)` — exactly the data `scrape_page` hands back to `crawl`.  The crawl
  loop itself is translated statement by statement.
* HTML documents are modelled by the mutual inductives `HNode`/`HForest`.
  Functions that mutate a BeautifulSoup tree in place are modelled in a
  state-passing style: they return the post-call state of the tree that was
  passed in, so "mutates its argument" is an observable fact of the model.
-/

set_option linter.unusedVariables false

namespace Scraper

/-! ## Python string primitives -/

/-- Python whitespace for `str.strip()` (ASCII fragment). -/
def pyWs (c : Char) : Bool :=
  c == ' ' || c == '\t' || c == '\n' || c == '\x0d' || c == '\x0b' || c == '\x0c'

/-- `str.strip()` on a character list. -/
def stripL (l : List Char) : List Char :=
  ((l.dropWhile pyWs).reverse.dropWhile pyWs).reverse

/-- Python `str.strip()`. -/
def pyStrip (s : String) : String := ⟨stripL s.data⟩

/-- `str.rstrip('/')` on a character list. -/
def rstripSlashL (l : List Char) : List Char :=
  (l.reverse.dropWhile (· == '/')).reverse

/-- Python `str.startswith`. -/
def pyStartswith (s pre : String) : Bool := pre.data.isPrefixOf s.data

/-- ASCII `str.lower()` on one character. -/
def lowerChar (c : Char) : Char :=
  if 65 ≤ c.toNat ∧ c.toNat ≤ 90 then Char.ofNat (c.toNat + 32) else c

/-- ASCII `str.lower()`. -/
def pyLower (s : String) : String := ⟨s.data.map lowerChar⟩

/-- Split a list at the first occurrence of `c`; `none` when `c` is absent. -/
def splitFirstL (c : Char) : List Char → Option (List Char × List Char)
  | [] => none
  | a :: t =>
    if a = c then some ([], t)
    else (splitFirstL c t).map (fun p => (a :: p.1, p.2))

/-- Split a list at the last occurrence of `c`; `none` when `c` is absent. -/
def splitLastL (c : Char) (l : List Char) : Option (List Char × List Char) :=
  match splitFirstL c l.reverse with
  | some (rpost, rpre) => some (rpre.reverse, rpost.reverse)
  | none => none

/-! ## `urllib.parse.urlparse` -/

/-- ASCII letter (Python `c.isascii() and c.isalpha()`). -/
def isAsciiAlpha (c : Char) : Bool :=
  (65 ≤ c.toNat && c.toNat ≤ 90) || (97 ≤ c.toNat && c.toNat ≤ 122)

/-- ASCII digit. -/
def isAsciiDigit (c : Char) : Bool := 48 ≤ c.toNat && c.toNat ≤ 57

/-- Characters allowed in a URL scheme (CPython `scheme_chars`). -/
def isSchemeChar (c : Char) : Bool :=
  isAsciiAlpha c || isAsciiDigit c || c == '+' || c == '-' || c == '.'

/-- Not one of the netloc delimiters `/?#`. -/
def notDelim (c : Char) : Bool := !(c == '/' || c == '?' || c == '#')

/-- CPython scheme detection: split off `scheme:` when the part before the
first `:` is nonempty, starts with an ASCII letter and consists of scheme
characters; the scheme is lowercased. -/
def splitScheme (l : List Char) : List Char × List Char :=
  match splitFirstL ':' l with
  | some (c :: pre, post) =>
      if isAsciiAlpha c && (c :: pre).all isSchemeChar then
        ((c :: pre).map lowerChar, post)
      else ([], l)
  | _ => ([], l)

/-- CPython netloc splitting: after `//`, the netloc runs up to the first
`/`, `?` or `#`. -/
def splitNetloc (l : List Char) : List Char × List Char :=
  match l with
  | '/' :: '/' :: rest => (rest.takeWhile notDelim, rest.dropWhile notDelim)
  | _ => ([], l)

/-- Split off the fragment at the first `#` (identity when absent). -/
def splitFrag (l : List Char) : List Char × List Char :=
  match splitFirstL '#' l with
  | some (a, b) => (a, b)
  | none => (l, [])

/-- Split off the query at the first `?` (identity when absent). -/
def splitQuery (l : List Char) : List Char × List Char :=
  match splitFirstL '?' l with
  | some (a, b) => (a, b)
  | none => (l, [])

/-- CPython `_splitparams`: split `;params` off the last path segment. -/
def splitParams (l : List Char) : List Char × List Char :=
  match splitLastL '/' l with
  | some (pre, post) =>
      match splitFirstL ';' post with
      | some (b1, b2) => (pre ++ '/' :: b1, b2)
      | none => (l, [])
  | none =>
      match splitFirstL ';' l with
      | some (b1, b2) => (b1, b2)
      | none => (l, [])

/-- Schemes for which `urlparse` splits params (CPython `uses_params`). -/
def usesParams : List String :=
  ["", "ftp", "hdl", "prospero", "http", "imap", "https", "shttp", "rtsp",
   "rtspu", "sip", "sips", "mms", "sftp", "tel"]

/-- Result of `urllib.parse.urlparse`. -/
structure UrlParts where
  scheme : String
  netloc : String
  path : String
  params : String
  query : String
  frag : String
deriving DecidableEq, Repr

/-- Characters CPython removes from a URL before parsing. -/
def badUrlChar (c : Char) : Bool := c == '\t' || c == '\x0d' || c == '\n'

/-- `urllib.parse.urlparse` on a character list. -/
def urlparseL (l0 : List Char) : UrlParts :=
  let l := l0.filter (fun c => !badUrlChar c)
  let sp := splitScheme l
  let np := splitNetloc sp.2
  let fp := splitFrag np.2
  let qp := splitQuery fp.1
  let pp :=
    if ';' ∈ qp.1 ∧ (⟨sp.1⟩ : String) ∈ usesParams then splitParams qp.1
    else (qp.1, [])
  ⟨⟨sp.1⟩, ⟨np.1⟩, ⟨pp.1⟩, ⟨pp.2⟩, ⟨qp.2⟩, ⟨fp.2⟩⟩

/-- `urllib.parse.urlparse` (the attributes `scraper.py` uses). -/
def urlparse (s : String) : UrlParts := urlparseL s.data

/-! ## `normalize_url` (scraper.py lines 474-482) -/

/-- `normalize_url`: drop the fragment, strip trailing slashes from the path,
keep scheme, netloc and query. -/
def normalize_url (url : String) : String :=
  let parsed := urlparse url
  let path : String := ⟨rstripSlashL parsed.path.data⟩
  let normalized := parsed.scheme ++ "://" ++ parsed.netloc ++ path
  if parsed.query ≠ "" then normalized ++ "?" ++ parsed.query else normalized

/-! ## The crawl loop (scraper.py lines 532-604)

`scrape_page` (fetching plus extraction) is abstracted as the *input graph*
`Web`: for each URL either `none` (fetch or extraction failure, i.e.
`success = False`) or `some (title, content, links)`.  This is exactly the
interface `crawl` consumes; the claims quantify over "every input graph".

Besides the two sequences the Python function returns (`pages`,
`all_links`) the model records three instrumentation traces that the claims
talk about: the URLs popped off the frontier (`deq`), the URLs marked
visited together with their entry's depth (`procd`, in the source this is
the mutation order of the `visited` set, whose membership test we model by
`procd.map Prod.fst`), and the URLs ever appended to the frontier (`enq`,
seeded with the start URL). -/

/-- A discovered link, as produced by `extract_internal_links`. -/
structure LinkR where
  url : String
  text : String
deriving DecidableEq, Repr

/-- A stored page record. -/
structure PageR where
  url : String
  title : String
  content : String
deriving DecidableEq, Repr

/-- A frontier entry `(url, depth, referer)`. -/
structure QItem where
  url : String
  depth : Nat
  referer : Option String
deriving DecidableEq, Repr

/-- The abstract input graph: what `scrape_page` returns per URL. -/
def Web : Type := String → Option (String × String × List LinkR)

/-- Result (and instrumentation traces) of a crawl run. -/
structure CrawlOut where
  pages : List PageR
  allLinks : List LinkR
  deq : List String
  procd : List (String × Nat)
  enq : List String
deriving DecidableEq, Repr

/-- The depth gate for following links:
`max_depth is None or depth < max_depth`. -/
def depthOk (maxDepth : Option Nat) (depth : Nat) : Bool :=
  match maxDepth with
  | none => true
  | some m => depth < m

/-- The path filter gate:
`path_prefix and not urlparse(url).path.startswith(path_prefix)`
(a `None` or empty path filter never blocks). -/
def pfxBlocks (pfx : Option String) (path : String) : Bool :=
  match pfx with
  | none => false
  | some p => decide (p ≠ "") && !(pyStartswith path p)

/-- The link-enqueueing loop of `crawl` (lines 589-594): for each link in
order, canonicalize; when the canonical URL is neither visited nor pending,
append a frontier entry at `depth + 1` with the current URL as referer and
record the link in `all_links`. -/
def enqueueLinks (visited : List String) (depth : Nat) (cur : String) :
    List LinkR → List QItem → List LinkR → List String →
    List QItem × List LinkR × List String
  | [], queue, alls, enq => (queue, alls, enq)
  | lk :: restLinks, queue, alls, enq =>
    let n := normalize_url lk.url
    if n ∉ visited ∧ n ∉ queue.map QItem.url then
      enqueueLinks visited depth cur restLinks
        (queue ++ [⟨n, depth + 1, some cur⟩]) (alls ++ [lk]) (enq ++ [n])
    else
      enqueueLinks visited depth cur restLinks queue alls enq

/-- The `while` loop of `crawl` (lines 557-599), translated check by check.
Termination: each iteration either appends a page (bounded by `maxPages`) or
shortens the queue without touching `pages`. -/
def crawlLoop (web : Web) (baseDomain : String) (pfx : Option String)
    (maxPages : Nat) (maxDepth : Option Nat) :
    List QItem → List (String × Nat) → List PageR → List LinkR →
    List String → List String → CrawlOut
  | [], procd, pages, allLinks, deq, enq => ⟨pages, allLinks, deq, procd, enq⟩
  | item :: rest, procd, pages, allLinks, deq, enq =>
    if h : pages.length < maxPages then
      if item.url ∈ procd.map Prod.fst then
        crawlLoop web baseDomain pfx maxPages maxDepth rest procd pages
          allLinks (deq ++ [item.url]) enq
      else if (urlparse item.url).netloc ≠ baseDomain then
        crawlLoop web baseDomain pfx maxPages maxDepth rest procd pages
          allLinks (deq ++ [item.url]) enq
      else if pfxBlocks pfx (urlparse item.url).path then
        crawlLoop web baseDomain pfx maxPages maxDepth rest procd pages
          allLinks (deq ++ [item.url]) enq
      else
        match web item.url with
        | some (title, content, links) =>
          if pyStrip content ≠ "" then
            if depthOk maxDepth item.depth then
              let e := enqueueLinks (procd.map Prod.fst ++ [item.url])
                item.depth item.url links rest allLinks enq
              crawlLoop web baseDomain pfx maxPages maxDepth e.1
                (procd ++ [(item.url, item.depth)])
                (pages ++ [⟨item.url, title, content⟩]) e.2.1
                (deq ++ [item.url]) e.2.2
            else
              crawlLoop web baseDomain pfx maxPages maxDepth rest
                (procd ++ [(item.url, item.depth)])
                (pages ++ [⟨item.url, title, content⟩]) allLinks
                (deq ++ [item.url]) enq
          else
            crawlLoop web baseDomain pfx maxPages maxDepth rest
              (procd ++ [(item.url, item.depth)]) pages allLinks
              (deq ++ [item.url]) enq
        | none =>
          crawlLoop web baseDomain pfx maxPages maxDepth rest
            (procd ++ [(item.url, item.depth)]) pages allLinks
            (deq ++ [item.url]) enq
    else ⟨pages, allLinks, deq, procd, enq⟩
termination_by queue procd pages _ _ _ => (maxPages - pages.length, queue.length)
decreasing_by
all_goals simp_wf
all_goals first
  | exact Prod.Lex.left _ _ (by omega)
  | exact Prod.Lex.right _ (by omega)

/-- `crawl(start_url, max_pages, max_depth, path_prefix)` (lines 532-604). -/
def crawl (web : Web) (startUrl : String) (maxPages : Nat)
    (maxDepth : Option Nat) (pfx : Option String) : CrawlOut :=
  let seed := normalize_url startUrl
  crawlLoop web (urlparse startUrl).netloc pfx maxPages maxDepth
    [⟨seed, 0, none⟩] [] [] [] [] [seed]

/-- Fuel-indexed copy of `crawlLoop`, used only to *evaluate* concrete runs
by kernel reduction (the well-founded `crawlLoop` does not reduce
definitionally).  `crawlLoopF_eq` transfers its results to `crawlLoop`. -/
def crawlLoopF (web : Web) (baseDomain : String) (pfx : Option String)
    (maxPages : Nat) (maxDepth : Option Nat) :
    Nat → List QItem → List (String × Nat) → List PageR → List LinkR →
    List String → List String → Option CrawlOut
  | 0, _, _, _, _, _, _ => none
  | _ + 1, [], procd, pages, allLinks, deq, enq =>
      some ⟨pages, allLinks, deq, procd, enq⟩
  | fuel + 1, item :: rest, procd, pages, allLinks, deq, enq =>
    if pages.length < maxPages then
      if item.url ∈ procd.map Prod.fst then
        crawlLoopF web baseDomain pfx maxPages maxDepth fuel rest procd pages
          allLinks (deq ++ [item.url]) enq
      else if (urlparse item.url).netloc ≠ baseDomain then
        crawlLoopF web baseDomain pfx maxPages maxDepth fuel rest procd pages
          allLinks (deq ++ [item.url]) enq
      else if pfxBlocks pfx (urlparse item.url).path then
        crawlLoopF web baseDomain pfx maxPages maxDepth fuel rest procd pages
          allLinks (deq ++ [item.url]) enq
      else
        match web item.url with
        | some (title, content, links) =>
          if pyStrip content ≠ "" then
            if depthOk maxDepth item.depth then
              let e := enqueueLinks (procd.map Prod.fst ++ [item.url])
                item.depth item.url links rest allLinks enq
              crawlLoopF web baseDomain pfx maxPages maxDepth fuel e.1
                (procd ++ [(item.url, item.depth)])
                (pages ++ [⟨item.url, title, content⟩]) e.2.1
                (deq ++ [item.url]) e.2.2
            else
              crawlLoopF web baseDomain pfx maxPages maxDepth fuel rest
                (procd ++ [(item.url, item.depth)])
                (pages ++ [⟨item.url, title, content⟩]) allLinks
                (deq ++ [item.url]) enq
          else
            crawlLoopF web baseDomain pfx maxPages maxDepth fuel rest
              (procd ++ [(item.url, item.depth)]) pages allLinks
              (deq ++ [item.url]) enq
        | none =>
          crawlLoopF web baseDomain pfx maxPages maxDepth fuel rest
            (procd ++ [(item.url, item.depth)]) pages allLinks
            (deq ++ [item.url]) enq
    else some ⟨pages, allLinks, deq, procd, enq⟩

/-! ## Shape of normalized URLs (used to prove idempotence of
`normalize_url`) -/

/-- The query part `normalize_url` appends: `?query` when nonempty. -/
def qpart (Q : List Char) : List Char := if Q = [] then [] else '?' :: Q

/-- Invariants of the pieces `S ++ "://" ++ NL ++ P' ++ qpart Q` out of which
`normalize_url` builds its result when a scheme was detected and the input
contains no semicolon. -/
structure NormShape (S NL P' Q : List Char) : Prop where
  s_ne : S ≠ []
  s_head : ∃ c t, S = c :: t ∧ isAsciiAlpha c = true
  s_scheme : ∀ c ∈ S, isSchemeChar c = true
  s_low : S.map lowerChar = S
  nl_delim : ∀ c ∈ NL, notDelim c = true
  clean_all : ∀ c ∈ NL ++ P' ++ Q, badUrlChar c = false
  no_hash_p : '#' ∉ P'
  no_hash_q : '#' ∉ Q
  no_q : '?' ∉ P'
  no_semi : ';' ∉ P'
  p_trail : P' = [] ∨ ∃ a t, P'.reverse = a :: t ∧ (a == '/') = false

/-! ## Filters, goodness and reachability for the crawl claims -/

/-- The two silent-discard filters of the crawl loop, as one test: same
netloc as the seed and not blocked by the path filter. -/
def passesFilters (bd : String) (pfx : Option String) (u : String) : Bool :=
  ((urlparse u).netloc == bd) && !(pfxBlocks pfx (urlparse u).path)

/-- A URL is *good* when scraping it succeeds with nonempty (stripped)
content — exactly the condition under which `crawl` stores a page and
follows links. -/
def goodUrl (web : Web) (u : String) : Bool :=
  match web u with
  | some (_, content, _) => decide (pyStrip content ≠ "")
  | none => false

/-- The canonical URLs of the links scraped from `u`. -/
def canonLinks (web : Web) (u : String) : List String :=
  match web u with
  | some (_, _, links) => links.map (fun l => normalize_url l.url)
  | none => []

/-- A chain of link steps starting from a node at depth `i`: each step is
allowed by the depth gate at the position of its source, and each target is
a canonical link of its source that passes the filters and is good. -/
def goodChain (web : Web) (bd : String) (pfx : Option String)
    (md : Option Nat) : Nat → String → List String → Bool
  | _, _, [] => true
  | i, u, v :: rest =>
      depthOk md i && decide (v ∈ canonLinks web u) && passesFilters bd pfx v &&
        goodUrl web v && goodChain web bd pfx md (i + 1) v rest

/-- A path witnessing that its last node is reachable from the seed through
good, filter-passing pages, respecting the depth gate. -/
def goodPath (web : Web) (bd : String) (pfx : Option String)
    (md : Option Nat) (seed : String) (l : List String) : Bool :=
  match l with
  | [] => false
  | u :: rest =>
      (u == seed) && passesFilters bd pfx u && goodUrl web u &&
        goodChain web bd pfx md 0 u rest

/-- `u` is reachable from the seed through the filtered good-page graph:
this is the set the spec calls "the reachable same-domain graph (respecting
prefix/depth filters)" with non-empty extracted content. -/
def ReachGood (web : Web) (bd : String) (pfx : Option String)
    (md : Option Nat) (seed u : String) : Prop :=
  ∃ l, goodPath web bd pfx md seed (l ++ [u]) = true

/-- The BFS two-level window between frontier entries: everything behind `a`
sits at `a`'s depth or one below it. -/
def qRel (a b : QItem) : Prop := a.depth ≤ b.depth ∧ b.depth ≤ a.depth + 1

/-! ## Concrete input graphs used for counterexamples and witnesses -/

/-- Input graph for the C2 counterexample: with path filter `/docs/`, the
link `https://a.com/docs/` canonicalizes to `https://a.com/docs`, which
fails the filter at dequeue time *without* being marked visited, so a later
page linking to it again re-enqueues (and re-dequeues) it. -/
def webC2 : Web := fun u =>
  if u = "https://a.com/docs/start" then
    some ("S", "start body",
      [⟨"https://a.com/docs/", "root"⟩, ⟨"https://a.com/docs/b", "b"⟩])
  else if u = "https://a.com/docs/b" then
    some ("B", "b body", [⟨"https://a.com/docs/", "root"⟩])
  else none

/-- Input graph for the C3 counterexample: the only page links back to
itself, so the discovered link is never newly queued. -/
def webC3 : Web := fun u =>
  if u = "https://a.com/p" then
    some ("T", "p body", [⟨"https://a.com/p", "self"⟩])
  else none

/-- Input graph with two good pages, used for the C1 witness. -/
def webC1 : Web := fun u =>
  if u = "https://a.com" then
    some ("Home", "home body", [⟨"https://a.com/b", "b"⟩])
  else if u = "https://a.com/b" then
    some ("B", "b body", [])
  else none

/-- Input graph with an empty-content page between two good ones, used for
the C6 witness: `/empty` yields whitespace-only content. -/
def webC6 : Web := fun u =>
  if u = "https://a.com" then
    some ("Home", "home body",
      [⟨"https://a.com/empty", "e"⟩, ⟨"https://a.com/b", "b"⟩])
  else if u = "https://a.com/empty" then some ("E", "  ", [])
  else if u = "https://a.com/b" then some ("B", "b body", [])
  else none

/-- The fragment part of a rendered URL: `#fragment` when nonempty. -/
def fpart (F : List Char) : List Char := if F = [] then [] else '#' :: F

/-- A well-formed absolute URL assembled from its components
`scheme://netloc + path + ?query + #fragment`. -/
def renderUrl (S NL P Q F : List Char) : String :=
  ⟨S ++ ':' :: '/' :: '/' :: (NL ++ (P ++ qpart Q ++ fpart F))⟩

/-- Hygiene conditions on URL components under which `urlparse` recovers
them from the rendered string. -/
structure RenderOk (S NL P Q F : List Char) : Prop where
  s_ne : S ≠ []
  s_head : ∃ c t, S = c :: t ∧ isAsciiAlpha c = true
  s_scheme : ∀ c ∈ S, isSchemeChar c = true
  nl_delim : ∀ c ∈ NL, notDelim c = true
  clean_all : ∀ c ∈ NL ++ P ++ Q ++ F, badUrlChar c = false
  no_hash_p : '#' ∉ P
  no_hash_q : '#' ∉ Q
  no_q : '?' ∉ P
  no_semi : ';' ∉ P

/-! ## HTML document model (for `extract_text`, `is_js_rendered`,
`get_page_title`)

A parsed document is a tree of elements, text nodes and comments.  An
element carries its tag name, its single-valued attributes (`id`,
`property`, `content`, …), its multi-valued `class` list, and its children.
This mirrors the BeautifulSoup tree the scraper works on. -/

mutual
inductive HNode where
  | text : String → HNode
  | comm : String → HNode
  | elem : String → List (String × String) → List String → HForest → HNode
deriving DecidableEq, Repr
inductive HForest where
  | nil : HForest
  | cons : HNode → HForest → HForest
deriving DecidableEq, Repr
end

/-- Build a forest from a list of nodes (notation helper for concrete
documents). -/
def hf : List HNode → HForest
  | [] => HForest.nil
  | n :: rest => HForest.cons n (hf rest)

/-- The tag name of an element (`""` for text and comment nodes, which
BeautifulSoup never yields from tag searches). -/
def tagOf : HNode → String
  | HNode.elem t _ _ _ => t
  | _ => ""

/-- The children of an element (empty for text and comment nodes). -/
def childrenOf : HNode → HForest
  | HNode.elem _ _ _ ch => ch
  | _ => HForest.nil

/-- The multi-valued `class` attribute (empty when absent — an absent and an
empty class list are equally falsy in the Python source). -/
def classesOf : HNode → List String
  | HNode.elem _ _ c _ => c
  | _ => []

/-- Lookup in the single-valued attribute list (`Tag.get`). -/
def attrLookup : List (String × String) → String → Option String
  | [], _ => none
  | (k, v) :: rest, k' => if k == k' then some v else attrLookup rest k'

/-- `element.get(key)` for single-valued attributes. -/
def attrOf (n : HNode) (k : String) : Option String :=
  match n with
  | HNode.elem _ a _ _ => attrLookup a k
  | _ => none

mutual
/-- The document-order list of text strings of a subtree, as `get_text`
enumerates them: comments are excluded, and so are the raw contents of
`script`/`style` elements (BeautifulSoup ≥ 4.9 types those strings
`Script`/`Stylesheet` and `get_text` skips them). -/
def textsN : HNode → List String
  | HNode.text s => [s]
  | HNode.comm _ => []
  | HNode.elem t _ _ ch =>
    if t == "script" || t == "style" then [] else textsF ch
def textsF : HForest → List String
  | HForest.nil => []
  | HForest.cons n f => textsN n ++ textsF f
end

/-- `element.get_text()`: concatenation of the subtree's strings. -/
def getTextRaw (n : HNode) : String := String.join (textsN n)

/-- `element.get_text(strip=True)`: strip each string, drop the empty ones,
concatenate. -/
def getTextStrip (n : HNode) : String :=
  String.join (((textsN n).map pyStrip).filter (fun s => !(s == "")))

/-- `element.get_text(separator="\n", strip=True)`. -/
def getTextSepStrip (n : HNode) : String :=
  String.intercalate "\n" (((textsN n).map pyStrip).filter (fun s => !(s == "")))

mutual
/-- Preorder search for the first element satisfying a predicate, checking a
node and then its subtree (`findPN`) or a whole forest (`findPF`).  Only
elements are tested, as in BeautifulSoup tag searches. -/
def findPN (p : HNode → Bool) : HNode → Option HNode
  | HNode.elem t a c ch =>
    if p (HNode.elem t a c ch) then some (HNode.elem t a c ch)
    else findPF p ch
  | _ => none
def findPF (p : HNode → Bool) : HForest → Option HNode
  | HForest.nil => none
  | HForest.cons n f =>
    match findPN p n with
    | some r => some r
    | none => findPF p f
end

/-- `element.find(...)`: search the element's descendants (the element
itself is not a candidate). -/
def findIn (p : HNode → Bool) (n : HNode) : Option HNode := findPF p (childrenOf n)

/-- Name filter for finds. -/
def tagIs (t : String) (n : HNode) : Bool := tagOf n == t

mutual
/-- Net effect of `for el in soup.find_all(names): el.decompose()`: every
element subtree whose tag is in `names` is removed; the node the loop was
called on is kept. -/
def removeTagsN (names : List String) : HNode → HNode
  | HNode.text s => HNode.text s
  | HNode.comm s => HNode.comm s
  | HNode.elem t a c ch => HNode.elem t a c (removeTagsF names ch)
def removeTagsF (names : List String) : HForest → HForest
  | HForest.nil => HForest.nil
  | HForest.cons (HNode.elem t a c ch) f =>
    if t ∈ names then removeTagsF names f
    else HForest.cons (HNode.elem t a c (removeTagsF names ch))
      (removeTagsF names f)
  | HForest.cons (HNode.text s) f =>
    HForest.cons (HNode.text s) (removeTagsF names f)
  | HForest.cons (HNode.comm s) f =>
    HForest.cons (HNode.comm s) (removeTagsF names f)
end

mutual
/-- Net effect of extracting every comment node (lines 214-215). -/
def removeCommentsN : HNode → HNode
  | HNode.text s => HNode.text s
  | HNode.comm s => HNode.comm s
  | HNode.elem t a c ch => HNode.elem t a c (removeCommentsF ch)
def removeCommentsF : HForest → HForest
  | HForest.nil => HForest.nil
  | HForest.cons (HNode.comm _) f => removeCommentsF f
  | HForest.cons (HNode.text s) f =>
    HForest.cons (HNode.text s) (removeCommentsF f)
  | HForest.cons (HNode.elem t a c ch) f =>
    HForest.cons (HNode.elem t a c (removeCommentsF ch)) (removeCommentsF f)
end

mutual
/-- Pathed preorder traversal of all element descendants.  Each entry is
`(path, parent tag, element)`; the path (child indices from the traversal
root) plays the role of Python's `id(element)` identity, and the parent tag
supports the `element.parent.name == "pre"` check. -/
def descsN (ptag : String) (pth : List Nat) : HNode → List (List Nat × String × HNode)
  | HNode.elem t a c ch => (pth, ptag, HNode.elem t a c ch) :: descsF t pth 0 ch
  | _ => []
def descsF (ptag : String) (pth : List Nat) (i : Nat) : HForest → List (List Nat × String × HNode)
  | HForest.nil => []
  | HForest.cons n f => descsN ptag (pth ++ [i]) n ++ descsF ptag pth (i + 1) f
end

/-- The `main_content` selection chain of `extract_text` (lines 218-227):
first `<main>`, then `<article>`, then `id="content"`, then a tag with
`content` among its classes, then `<body>`, else the whole soup. -/
def selectMain (soup : HNode) : HNode :=
  match findIn (tagIs "main") soup with
  | some m => m
  | none =>
    match findIn (tagIs "article") soup with
    | some m => m
    | none =>
      match findIn (fun n => attrOf n "id" == some "content") soup with
      | some m => m
      | none =>
        match findIn (fun n => (classesOf n).contains "content") soup with
        | some m => m
        | none =>
          match findIn (tagIs "body") soup with
          | some m => m
          | none => soup

/-- The tags `extract_text` removes up front (lines 206-211). -/
def junkTags : List String :=
  ["script", "style", "nav", "footer", "header", "aside", "noscript",
   "iframe", "svg"]

/-- The tags collected by the extraction loop (line 232). -/
def targetTags : List String :=
  ["h1", "h2", "h3", "h4", "h5", "h6", "p", "li", "td", "th", "blockquote",
   "pre", "code"]

/-- The cleaned document's selected content root. -/
def mainContent (soup : HNode) : HNode :=
  selectMain (removeCommentsN (removeTagsN junkTags soup))

/-- `str.replace(pat, repl)` for a non-empty pattern: replace every
non-overlapping occurrence from the left.  The `Nat` argument counts
characters still to skip inside a replaced match. -/
def replaceAux (pat repl : List Char) : List Char → Nat → List Char
  | [], _ => []
  | c :: rest, 0 =>
    if !pat.isEmpty && pat.isPrefixOf (c :: rest) then
      repl ++ replaceAux pat repl rest (pat.length - 1)
    else c :: replaceAux pat repl rest 0
  | _ :: rest, Nat.succ k => replaceAux pat repl rest k

/-- `s.replace(pat, repl)` (non-empty pattern). -/
def pyReplaceAll (s pat repl : String) : String :=
  ⟨replaceAux pat.data repl.data s.data 0⟩

/-- `s.count(pat)` for a non-empty pattern: non-overlapping occurrences. -/
def countSubAux (pat : List Char) : List Char → Nat → Nat
  | [], _ => 0
  | c :: rest, 0 =>
    if !pat.isEmpty && pat.isPrefixOf (c :: rest) then
      1 + countSubAux pat rest (pat.length - 1)
    else countSubAux pat rest 0
  | _ :: rest, Nat.succ k => countSubAux pat rest k

/-- `s.count(pat)`. -/
def countSubstr (s pat : String) : Nat := countSubAux pat.data s.data 0

/-- `re.sub(r"\n\x7b3,\x7d", "\n\n", ·)`: every run of three or more
newlines collapses to exactly two.  The `Nat` argument counts the newlines
already emitted in the current run. -/
def collapseAux : List Char → Nat → List Char
  | [], _ => []
  | c :: rest, k =>
    if c == '\n' then
      if k ≥ 2 then collapseAux rest (k + 1)
      else c :: collapseAux rest (k + 1)
    else c :: collapseAux rest 0

/-- Collapse 3+ newline runs to 2 (the fallback post-processing). -/
def collapseNewlines (s : String) : String := ⟨collapseAux s.data 0⟩

/-- The first `language-…` class wins; `language-` is then deleted from it
(lines 248-253). -/
def firstLangCls : List String → String
  | [] => ""
  | c :: rest =>
    if pyStartswith c "language-" then pyReplaceAll c "language-" ""
    else firstLangCls rest

/-- The fence language of a `<pre>`: from the class list of its first
descendant `<code>` element, when that list is non-empty. -/
def langOf (n : HNode) : String :=
  match findIn (tagIs "code") n with
  | none => ""
  | some ce =>
    if (classesOf ce).isEmpty then "" else firstLangCls (classesOf ce)

/-- The identities a processed `<pre>` adds to `seen_elements`: its
descendant `<code>` elements (lines 239-241). -/
def codePaths (pth : List Nat) (n : HNode) : List (List Nat) :=
  ((descsF (tagOf n) pth 0 (childrenOf n)).filter
    (fun e => tagOf e.2.2 == "code")).map (fun e => e.1)

/-- `seen_elements` after one loop iteration. -/
def procSeen (seen : List (List Nat)) (e : List Nat × String × HNode) :
    List (List Nat) :=
  if e.1 ∈ seen then seen
  else if tagOf e.2.2 == "pre" then (seen ++ [e.1]) ++ codePaths e.1 e.2.2
  else seen

/-- The lines one loop iteration appends (lines 233-276). -/
def procLine (seen : List (List Nat)) (e : List Nat × String × HNode) :
    List String :=
  if e.1 ∈ seen then []
  else
    let n := e.2.2
    if tagOf n == "pre" then
      if pyStrip (getTextRaw n) == "" then []
      else ["\n```" ++ langOf n ++ "\n" ++ pyStrip (getTextRaw n) ++ "\n```\n"]
    else if tagOf n == "code" then
      if e.2.1 == "pre" then []
      else if getTextStrip n == "" then []
      else ["`" ++ getTextStrip n ++ "`"]
    else if getTextStrip n == "" then []
    else if tagOf n == "h1" then ["\n# " ++ getTextStrip n ++ "\n"]
    else if tagOf n == "h2" then ["\n## " ++ getTextStrip n ++ "\n"]
    else if tagOf n == "h3" then ["\n### " ++ getTextStrip n ++ "\n"]
    else if tagOf n == "h4" then ["\n#### " ++ getTextStrip n ++ "\n"]
    else if tagOf n == "h5" then ["\n##### " ++ getTextStrip n ++ "\n"]
    else if tagOf n == "h6" then ["\n###### " ++ getTextStrip n ++ "\n"]
    else if tagOf n == "li" then ["- " ++ getTextStrip n]
    else if tagOf n == "blockquote" then ["> " ++ getTextStrip n]
    else [getTextStrip n]

/-- One iteration of the extraction loop. -/
def procEntry (acc : List (List Nat) × List String)
    (e : List Nat × String × HNode) : List (List Nat) × List String :=
  (procSeen acc.1 e, acc.2 ++ procLine acc.1 e)

/-- `main_content.find_all([...])`: the pathed target elements in document
order. -/
def extractEntries (m : HNode) : List (List Nat × String × HNode) :=
  (descsF (tagOf m) [] 0 (childrenOf m)).filter
    (fun e => targetTags.contains (tagOf e.2.2))

/-- The `lines` list the extraction loop produces. -/
def extractLines (m : HNode) : List String :=
  ((extractEntries m).foldl procEntry ([], [])).2

/-- `extract_text` (lines 202-286).  The first statement of the source,
`soup = BeautifulSoup(str(soup), "lxml")`, rebinds the local name to a
re-parse of the serialized tree, so the whole pipeline runs on a fresh
value-equal copy. -/
def extract_text (soup : HNode) : String :=
  let m := mainContent soup
  let lines := extractLines m
  if lines.isEmpty then collapseNewlines (getTextSepStrip m)
  else String.intercalate "\n" lines

/-- The call protocol of `extract_text`: its return value together with the
post-call state of the passed-in document.  Because line 204 rebinds `soup`
to a re-parsed copy before any mutation, the argument's tree is the one the
caller passed. -/
def extract_text_st (soup : HNode) : String × HNode := (extract_text soup, soup)

/-- The tags `is_js_rendered` decomposes under the body. -/
def jsTags : List String := ["script", "style"]

mutual
/-- `body = soup.find("body")` followed by decomposing every script/style
under it: find the first `body` element in preorder and replace it by its
cleaned version, returning the new tree and the node the Python variable
`body` now references. -/
def frbN (t : String) : HNode → Option (HNode × HNode)
  | HNode.elem t' a c ch =>
    if t' == t then
      some (HNode.elem t' a c (removeTagsF jsTags ch),
        HNode.elem t' a c (removeTagsF jsTags ch))
    else
      match frbF t ch with
      | some (ch', b) => some (HNode.elem t' a c ch', b)
      | none => none
  | _ => none
def frbF (t : String) : HForest → Option (HForest × HNode)
  | HForest.nil => none
  | HForest.cons n rest =>
    match frbN t n with
    | some (n', b) => some (HForest.cons n' rest, b)
    | none =>
      match frbF t rest with
      | some (rest', b) => some (HForest.cons n rest', b)
      | none => none
end

/-- The four single-page-app container probes (lines 185-191), on the
(already mutated) soup. -/
def spaFound (soup : HNode) : Bool :=
  (findIn (fun n => attrOf n "id" == some "app") soup).isSome ||
  (findIn (fun n => attrOf n "id" == some "root") soup).isSome ||
  (findIn (fun n => attrOf n "id" == some "__next") soup).isSome ||
  (findIn (fun n => attrOf n "id" == some "__nuxt") soup).isSome

/-- `is_js_rendered(html, soup)` (lines 167-199): the classification
together with the post-call state of `soup` (the script/style subtrees of
its first body are decomposed in place). -/
def is_js_rendered (html : String) (soup : HNode) : Bool × HNode :=
  match soup with
  | HNode.elem t a c ch =>
    match frbF "body" ch with
    | none => (false, HNode.elem t a c ch)
    | some (ch', body') =>
      let soup' := HNode.elem t a c ch'
      let textLen := (getTextStrip body').length
      let scriptCount := countSubstr (pyLower html) "<script"
      let verdict :=
        if textLen < 500 ∧ scriptCount > 5 then true
        else if textLen < 200 ∧ spaFound soup' = true then true
        else false
      (verdict, soup')
  | n => (false, n)

/-- `Tag.string`: the single string of a tag, recursing through single-child
element chains; `none` when there is no unique string. -/
def nodeString : HNode → Option String
  | HNode.elem _ _ _ (HForest.cons (HNode.text s) HForest.nil) => some s
  | HNode.elem _ _ _ (HForest.cons (HNode.comm s) HForest.nil) => some s
  | HNode.elem _ _ _ (HForest.cons (HNode.elem t a c ch) HForest.nil) =>
    nodeString (HNode.elem t a c ch)
  | _ => none

/-- The `og:title` fallback of `get_page_title` (lines 356-360): the meta's
`content` attribute when present and non-empty, else the fixed default. -/
def titleOg (soup : HNode) : String :=
  match findIn (fun n => tagOf n == "meta" &&
      attrOf n "property" == some "og:title") soup with
  | some mt =>
    match attrOf mt "content" with
    | some c => if c == "" then "Unbekannter Titel" else c
    | none => "Unbekannter Titel"
  | none => "Unbekannter Titel"

/-- The `<h1>` fallback of `get_page_title` (lines 352-354). -/
def titleH1 (soup : HNode) : String :=
  match findIn (tagIs "h1") soup with
  | some h1 => getTextStrip h1
  | none => titleOg soup

/-- `get_page_title` (lines 346-360): the stripped `<title>` string when the
tag exists and its string is truthy (non-empty before stripping!), else the
`<h1>`/`og:title`/default chain. -/
def get_page_title (soup : HNode) : String :=
  match findIn (tagIs "title") soup with
  | some tt =>
    match nodeString tt with
    | some s => if s == "" then titleH1 soup else pyStrip s
    | none => titleH1 soup
  | none => titleH1 soup

/-- A `<pre><code class="language-go">X</code></pre>` element. -/
def preGo (X : String) : HNode :=
  HNode.elem "pre" [] []
    (hf [HNode.elem "code" [] ["language-go"] (hf [HNode.text X])])

/-- Concrete document for the C7 witness. -/
def docC7 : HNode :=
  HNode.elem "[document]" [] []
    (hf [HNode.elem "html" [] []
      (hf [HNode.elem "body" [] []
        (hf [HNode.elem "h1" [] [] (hf [HNode.text "Guide"]),
             preGo "package main"])])])

/-- Concrete document for the C8 counterexample: a body holding a script
and a paragraph. -/
def docC8 : HNode :=
  HNode.elem "[document]" [] []
    (hf [HNode.elem "html" [] []
      (hf [HNode.elem "body" [] []
        (hf [HNode.elem "script" [] [] (hf [HNode.text "var x = 1"]),
             HNode.elem "p" [] [] (hf [HNode.text "Hello world"])])])])

/-- Concrete document for the C9 counterexample: a whitespace-only
`<title>`. -/
def docC9 : HNode :=
  HNode.elem "[document]" [] []
    (hf [HNode.elem "html" [] []
      (hf [HNode.elem "head" [] []
        (hf [HNode.elem "title" [] [] (hf [HNode.text " "])]),
        HNode.elem "body" [] []
          (hf [HNode.elem "p" [] [] (hf [HNode.text "Body text"])])])])

/-- Concrete document for the C9 witness: a title that strips to
`"Hello"`. -/
def docC9b : HNode :=
  HNode.elem "[document]" [] []
    (hf [HNode.elem "html" [] []
      (hf [HNode.elem "head" [] []
        (hf [HNode.elem "title" [] [] (hf [HNode.text "  Hello  "])])])])

/-- Concrete document for the C10 witness: cleaning it is not the
identity. -/
def docC10 : HNode :=
  HNode.elem "[document]" [] []
    (hf [HNode.elem "html" [] []
      (hf [HNode.elem "body" [] []
        (hf [HNode.elem "nav" [] [] (hf [HNode.text "Menu"]),
             HNode.elem "p" [] [] (hf [HNode.text "Content here"])])])])

end Scraper

namespace Scraper

/-! # Part II: lemmas and theorems -/

/-! ### List and character toolkit -/

theorem splitFirstL_eq_none_iff {c : Char} :
    ∀ {l : List Char}, splitFirstL c l = none ↔ c ∉ l := by
  intro l
  induction l with
  | nil => simp [splitFirstL]
  | cons a t ih =>
    by_cases hac : a = c
    · subst hac
      simp [splitFirstL]
    · constructor
      · intro hnone
        simp only [splitFirstL, if_neg hac] at hnone
        cases h : splitFirstL c t with
        | some p => rw [h] at hnone; simp at hnone
        | none =>
          simp only [List.mem_cons, not_or]
          exact ⟨fun hh => hac hh.symm, ih.mp h⟩
      · intro hmem
        simp only [List.mem_cons, not_or] at hmem
        simp only [splitFirstL, if_neg hac, ih.mpr hmem.2, Option.map_none']

theorem splitFirstL_eq_some {c : Char} :
    ∀ {l a b : List Char}, splitFirstL c l = some (a, b) →
      l = a ++ c :: b ∧ c ∉ a := by
  intro l
  induction l with
  | nil => intro a b h; simp [splitFirstL] at h
  | cons x t ih =>
    intro a b h
    by_cases hxc : x = c
    · subst hxc
      have h' : (some (([] : List Char), t) :
          Option (List Char × List Char)) = some (a, b) := by
        simpa [splitFirstL] using h
      have h2 := Option.some.inj h'
      have ha : ([] : List Char) = a := congrArg Prod.fst h2
      have hb : t = b := congrArg Prod.snd h2
      rw [← ha, ← hb]
      simp
    · cases hsp : splitFirstL c t with
      | none =>
        simp only [splitFirstL, if_neg hxc, hsp, Option.map_none'] at h
        cases h
      | some p =>
        obtain ⟨p1, p2⟩ := p
        simp only [splitFirstL, if_neg hxc, hsp, Option.map_some'] at h
        have h2 := Option.some.inj h
        have ha : x :: p1 = a := congrArg Prod.fst h2
        have hb : p2 = b := congrArg Prod.snd h2
        obtain ⟨ht, hnc⟩ := ih hsp
        rw [← ha, ← hb]
        constructor
        · rw [ht]
          simp
        · simp only [List.mem_cons, not_or]
          exact ⟨fun hh => hxc hh.symm, hnc⟩

theorem splitFirstL_append {c : Char} :
    ∀ {a : List Char} (b : List Char), c ∉ a →
      splitFirstL c (a ++ c :: b) = some (a, b) := by
  intro a
  induction a with
  | nil => intro b _; simp [splitFirstL]
  | cons x t ih =>
    intro b h
    simp only [List.mem_cons, not_or] at h
    have hxc : ¬ x = c := fun hh => h.1 hh.symm
    simp [splitFirstL, hxc, ih b h.2]

theorem takeWhile_append_all {α} {p : α → Bool} :
    ∀ {xs : List α} (ys : List α), (∀ x ∈ xs, p x = true) →
      (xs ++ ys).takeWhile p = xs ++ ys.takeWhile p := by
  intro xs
  induction xs with
  | nil => intro ys _; simp
  | cons a t ih =>
    intro ys h
    have ha : p a = true := h a (by simp)
    simp [List.takeWhile_cons, ha, ih ys (fun x hx => h x (by simp [hx]))]

theorem dropWhile_append_all {α} {p : α → Bool} :
    ∀ {xs : List α} (ys : List α), (∀ x ∈ xs, p x = true) →
      (xs ++ ys).dropWhile p = ys.dropWhile p := by
  intro xs
  induction xs with
  | nil => intro ys _; simp
  | cons a t ih =>
    intro ys h
    have ha : p a = true := h a (by simp)
    simp [List.dropWhile_cons, ha, ih ys (fun x hx => h x (by simp [hx]))]

theorem takeWhile_append_stop {α} {p : α → Bool} :
    ∀ {xs : List α} (ys : List α), (∃ x ∈ xs, p x = false) →
      (xs ++ ys).takeWhile p = xs.takeWhile p := by
  intro xs
  induction xs with
  | nil => intro ys h; simp at h
  | cons a t ih =>
    intro ys h
    by_cases ha : p a = true
    · have : ∃ x ∈ t, p x = false := by
        rcases h with ⟨x, hx, hpx⟩
        rcases List.mem_cons.mp hx with h1 | h2
        · subst h1; rw [ha] at hpx; cases hpx
        · exact ⟨x, h2, hpx⟩
      simp [List.takeWhile_cons, ha, ih ys this]
    · simp [List.takeWhile_cons, Bool.eq_false_iff.mpr ha]

theorem dropWhile_append_stop {α} {p : α → Bool} :
    ∀ {xs : List α} (ys : List α), (∃ x ∈ xs, p x = false) →
      (xs ++ ys).dropWhile p = xs.dropWhile p ++ ys := by
  intro xs
  induction xs with
  | nil => intro ys h; simp at h
  | cons a t ih =>
    intro ys h
    by_cases ha : p a = true
    · have : ∃ x ∈ t, p x = false := by
        rcases h with ⟨x, hx, hpx⟩
        rcases List.mem_cons.mp hx with h1 | h2
        · subst h1; rw [ha] at hpx; cases hpx
        · exact ⟨x, h2, hpx⟩
      simp [List.dropWhile_cons, ha, ih ys this]
    · simp [List.dropWhile_cons, Bool.eq_false_iff.mpr ha]

theorem dropWhile_ne_nil_of_stop {α} {p : α → Bool} {xs : List α}
    (h : ∃ x ∈ xs, p x = false) : xs.dropWhile p ≠ [] := by
  induction xs with
  | nil => simp at h
  | cons a t ih =>
    by_cases ha : p a = true
    · have : ∃ x ∈ t, p x = false := by
        rcases h with ⟨x, hx, hpx⟩
        rcases List.mem_cons.mp hx with h1 | h2
        · subst h1; rw [ha] at hpx; cases hpx
        · exact ⟨x, h2, hpx⟩
      simpa [List.dropWhile_cons, ha] using ih this
    · simp [List.dropWhile_cons, Bool.eq_false_iff.mpr ha]

theorem dropWhile_first_false {α} (p : α → Bool) :
    ∀ l : List α, l.dropWhile p = [] ∨
      ∃ a t, l.dropWhile p = a :: t ∧ p a = false := by
  intro l
  induction l with
  | nil => left; simp
  | cons a t ih =>
    by_cases ha : p a = true
    · simpa [List.dropWhile_cons, ha] using ih
    · right
      exact ⟨a, t, by simp [List.dropWhile_cons, Bool.eq_false_iff.mpr ha],
        Bool.eq_false_iff.mpr ha⟩

theorem dropWhile_subset {α} (p : α → Bool) (l : List α) :
    l.dropWhile p ⊆ l :=
  (List.dropWhile_sublist p).subset

theorem takeWhile_subset' {α} (p : α → Bool) (l : List α) :
    l.takeWhile p ⊆ l :=
  (List.takeWhile_sublist p).subset

/-! ### Character facts -/

theorem char_eq_of_toNat_eq {c d : Char} (h : c.toNat = d.toNat) : c = d := by
  apply Char.eq_of_val_eq
  apply UInt32.eq_of_toBitVec_eq
  apply BitVec.eq_of_toNat_eq
  exact h

theorem char_ne_of_toNat_ne {c d : Char} (h : c.toNat ≠ d.toNat) : c ≠ d :=
  fun he => h (by rw [he])

theorem lowerChar_toNat_upper {c : Char} (h1 : 65 ≤ c.toNat)
    (h2 : c.toNat ≤ 90) : (lowerChar c).toNat = c.toNat + 32 := by
  have hv : (c.toNat + 32).isValidChar := by left; omega
  simp [lowerChar, h1, h2, Char.ofNat, hv]
  rfl

theorem lowerChar_not_upper {c : Char} (h : ¬(65 ≤ c.toNat ∧ c.toNat ≤ 90)) :
    lowerChar c = c := by
  simp [lowerChar, h]

theorem toNat_lowerChar_cases (c : Char) :
    lowerChar c = c ∨ ((lowerChar c).toNat = c.toNat + 32 ∧
      65 ≤ c.toNat ∧ c.toNat ≤ 90) := by
  by_cases h : 65 ≤ c.toNat ∧ c.toNat ≤ 90
  · right; exact ⟨lowerChar_toNat_upper h.1 h.2, h⟩
  · left; exact lowerChar_not_upper h

theorem lowerChar_idem (c : Char) : lowerChar (lowerChar c) = lowerChar c := by
  by_cases h : 65 ≤ c.toNat ∧ c.toNat ≤ 90
  · have h32 := lowerChar_toNat_upper h.1 h.2
    apply lowerChar_not_upper
    omega
  · rw [lowerChar_not_upper h, lowerChar_not_upper h]

theorem char_eq_iff_toNat {c d : Char} : c = d ↔ c.toNat = d.toNat :=
  ⟨fun h => by rw [h], char_eq_of_toNat_eq⟩

theorem isAsciiAlpha_toNat {c : Char} : isAsciiAlpha c = true ↔
    (65 ≤ c.toNat ∧ c.toNat ≤ 90) ∨ (97 ≤ c.toNat ∧ c.toNat ≤ 122) := by
  simp [isAsciiAlpha]

theorem isAsciiAlpha_lowerChar {c : Char} (h : isAsciiAlpha c = true) :
    isAsciiAlpha (lowerChar c) = true := by
  rcases toNat_lowerChar_cases c with h1 | ⟨h2, h3, h4⟩
  · rwa [h1]
  · rw [isAsciiAlpha_toNat, h2]
    omega

theorem isSchemeChar_toNat {c : Char} : isSchemeChar c = true ↔
    (65 ≤ c.toNat ∧ c.toNat ≤ 90) ∨ (97 ≤ c.toNat ∧ c.toNat ≤ 122) ∨
    (48 ≤ c.toNat ∧ c.toNat ≤ 57) ∨ c.toNat = 43 ∨ c.toNat = 45 ∨
    c.toNat = 46 := by
  have h43 : (c = '+') ↔ c.toNat = 43 := char_eq_iff_toNat
  have h45 : (c = '-') ↔ c.toNat = 45 := char_eq_iff_toNat
  have h46 : (c = '.') ↔ c.toNat = 46 := char_eq_iff_toNat
  simp only [isSchemeChar, isAsciiAlpha, isAsciiDigit, Bool.or_eq_true,
    Bool.and_eq_true, decide_eq_true_eq, beq_iff_eq, h43, h45, h46]
  tauto

theorem isSchemeChar_lowerChar {c : Char} (h : isSchemeChar c = true) :
    isSchemeChar (lowerChar c) = true := by
  rcases toNat_lowerChar_cases c with h1 | ⟨h2, h3, h4⟩
  · rwa [h1]
  · rw [isSchemeChar_toNat] at h ⊢
    rw [h2]
    omega

theorem isSchemeChar_ne_colon {c : Char} (h : isSchemeChar c = true) :
    c ≠ ':' := by
  apply char_ne_of_toNat_ne
  rw [isSchemeChar_toNat] at h
  have h58 : (':' : Char).toNat = 58 := rfl
  rw [h58]
  omega

theorem badUrlChar_toNat {c : Char} : badUrlChar c = false ↔
    c.toNat ≠ 9 ∧ c.toNat ≠ 13 ∧ c.toNat ≠ 10 := by
  have h9 : ('\t' : Char).toNat = 9 := rfl
  have h13 : ('\x0d' : Char).toNat = 13 := rfl
  have h10 : ('\n' : Char).toNat = 10 := rfl
  simp only [badUrlChar, Bool.or_eq_false_iff, beq_eq_false_iff_ne]
  constructor
  · rintro ⟨⟨ht, hr⟩, hn⟩
    exact ⟨fun hc => ht (char_eq_of_toNat_eq (by rw [hc, h9])),
           fun hc => hr (char_eq_of_toNat_eq (by rw [hc, h13])),
           fun hc => hn (char_eq_of_toNat_eq (by rw [hc, h10]))⟩
  · rintro ⟨ht, hr, hn⟩
    exact ⟨⟨char_ne_of_toNat_ne (by rw [h9]; exact ht),
            char_ne_of_toNat_ne (by rw [h13]; exact hr)⟩,
           char_ne_of_toNat_ne (by rw [h10]; exact hn)⟩

theorem badUrlChar_lowerChar {c : Char} (h : badUrlChar c = false) :
    badUrlChar (lowerChar c) = false := by
  rcases toNat_lowerChar_cases c with h1 | ⟨h2, h3, h4⟩
  · rwa [h1]
  · rw [badUrlChar_toNat, h2]
    omega

theorem badUrlChar_of_schemeChar {c : Char} (h : isSchemeChar c = true) :
    badUrlChar c = false := by
  rw [isSchemeChar_toNat] at h
  rw [badUrlChar_toNat]
  omega

/-! ### `normalize_url` idempotence machinery -/

theorem notDelim_true_iff {c : Char} :
    notDelim c = true ↔ c ≠ '/' ∧ c ≠ '?' ∧ c ≠ '#' := by
  simp only [notDelim, Bool.not_eq_true', Bool.or_eq_false_iff,
    beq_eq_false_iff_ne, ne_eq]
  tauto

theorem mem_qpart {c : Char} {Q : List Char} (h : c ∈ qpart Q) :
    c = '?' ∨ c ∈ Q := by
  by_cases hQ : Q = []
  · simp [qpart, hQ] at h
  · simp only [qpart, if_neg hQ, List.mem_cons] at h
    exact h

theorem data_mk (l : List Char) : (⟨l⟩ : String).data = l := rfl

theorem mk_data (s : String) : (⟨s.data⟩ : String) = s := by
  cases s
  rfl

theorem string_ext {s t : String} (h : s.data = t.data) : s = t := by
  cases s
  cases t
  cases h
  rfl

theorem mk_eq_empty_iff {l : List Char} : ((⟨l⟩ : String) = "") ↔ l = [] := by
  rw [String.ext_iff]

theorem rstripSlashL_eq_self {l : List Char}
    (h : l = [] ∨ ∃ a t, l.reverse = a :: t ∧ (a == '/') = false) :
    rstripSlashL l = l := by
  rcases h with h | ⟨a, t, hrev, ha⟩
  · simp [h, rstripSlashL]
  · unfold rstripSlashL
    rw [hrev, List.dropWhile_cons, ha]
    rw [if_neg (by simp)]
    rw [← hrev, List.reverse_reverse]

theorem rstripSlashL_reverse (l : List Char) :
    (rstripSlashL l).reverse = l.reverse.dropWhile (· == '/') := by
  unfold rstripSlashL
  rw [List.reverse_reverse]

theorem rstripSlashL_trail (l : List Char) :
    rstripSlashL l = [] ∨ ∃ a t, (rstripSlashL l).reverse = a :: t ∧
      (a == '/') = false := by
  rcases dropWhile_first_false (· == '/') l.reverse with h | ⟨a, t, h, ha⟩
  · left
    have := rstripSlashL_reverse l
    rw [h] at this
    simpa using this
  · right
    exact ⟨a, t, by rw [rstripSlashL_reverse, h], ha⟩

theorem rstripSlashL_subset (l : List Char) : rstripSlashL l ⊆ l := by
  intro c hc
  have h1 : c ∈ (rstripSlashL l).reverse := by simpa using hc
  rw [rstripSlashL_reverse] at h1
  have h2 := dropWhile_subset (· == '/') l.reverse h1
  simpa using h2

theorem splitFrag_of_not_mem {l : List Char} (h : '#' ∉ l) :
    splitFrag l = (l, []) := by
  simp [splitFrag, splitFirstL_eq_none_iff.mpr h]

theorem splitQuery_of_not_mem {l : List Char} (h : '?' ∉ l) :
    splitQuery l = (l, []) := by
  simp [splitQuery, splitFirstL_eq_none_iff.mpr h]

theorem splitQuery_append {a : List Char} (b : List Char) (h : '?' ∉ a) :
    splitQuery (a ++ '?' :: b) = (a, b) := by
  simp [splitQuery, splitFirstL_append b h]

theorem splitScheme_detected {l S r1 : List Char}
    (h : splitScheme l = (S, r1)) (hne : S ≠ []) :
    (∃ c t, S = c :: t ∧ isAsciiAlpha c = true) ∧
    (∀ x ∈ S, isSchemeChar x = true) ∧ S.map lowerChar = S ∧ r1 ⊆ l := by
  cases hsf : splitFirstL ':' l with
  | none =>
    have h0 : splitScheme l = ([], l) := by unfold splitScheme; rw [hsf]
    rw [h0] at h
    exact absurd (congrArg Prod.fst h).symm hne
  | some p =>
    obtain ⟨pre, post⟩ := p
    cases pre with
    | nil =>
      have h0 : splitScheme l = ([], l) := by unfold splitScheme; rw [hsf]
      rw [h0] at h
      exact absurd (congrArg Prod.fst h).symm hne
    | cons c t =>
      have hbridge : splitScheme l =
          (if (isAsciiAlpha c && (c :: t).all isSchemeChar) = true then
            ((c :: t).map lowerChar, post)
          else ([], l)) := by
        unfold splitScheme
        rw [hsf]
      by_cases hcond : (isAsciiAlpha c && (c :: t).all isSchemeChar) = true
      · rw [hbridge, if_pos hcond] at h
        have hS : S = (c :: t).map lowerChar := (congrArg Prod.fst h).symm
        have hr : r1 = post := (congrArg Prod.snd h).symm
        obtain ⟨hdec, hnc⟩ := splitFirstL_eq_some hsf
        have hcond2 := hcond
        rw [Bool.and_eq_true] at hcond2
        obtain ⟨hal, hall⟩ := hcond2
        refine ⟨⟨lowerChar c, t.map lowerChar, by rw [hS]; rfl,
          isAsciiAlpha_lowerChar hal⟩, ?_, ?_, ?_⟩
        · intro x hx
          rw [hS] at hx
          obtain ⟨y, hy, rfl⟩ := List.mem_map.mp hx
          exact isSchemeChar_lowerChar (List.all_eq_true.mp hall y hy)
        · rw [hS, List.map_map]
          exact List.map_congr_left (fun a _ => lowerChar_idem a)
        · intro x hx
          rw [hr] at hx
          rw [hdec]
          simp [hx]
      · rw [hbridge, if_neg hcond] at h
        exact absurd (congrArg Prod.fst h).symm hne

theorem splitScheme_scheme_mk (u : String) :
    (urlparse u).scheme =
      ⟨(splitScheme (u.data.filter (fun c => !badUrlChar c))).1⟩ := by
  rw [urlparse, urlparseL]

theorem splitNetloc_fst_delim (l : List Char) :
    ∀ c ∈ (splitNetloc l).1, notDelim c = true := by
  unfold splitNetloc
  split
  · intro c hc
    exact List.mem_takeWhile_imp hc
  · intro c hc
    cases hc

theorem splitNetloc_fst_subset (l : List Char) : (splitNetloc l).1 ⊆ l := by
  unfold splitNetloc
  split
  · intro c hc
    have := takeWhile_subset' notDelim _ hc
    simp [this]
  · intro c hc
    cases hc

theorem splitNetloc_snd_subset (l : List Char) : (splitNetloc l).2 ⊆ l := by
  unfold splitNetloc
  split
  · intro c hc
    have := dropWhile_subset notDelim _ hc
    simp [this]
  · intro c hc
    exact hc

theorem splitFrag_fst_subset (l : List Char) : (splitFrag l).1 ⊆ l := by
  unfold splitFrag
  cases hsf : splitFirstL '#' l with
  | none => exact fun c hc => hc
  | some p =>
    obtain ⟨a, b⟩ := p
    obtain ⟨hdec, _⟩ := splitFirstL_eq_some hsf
    intro c hc
    rw [hdec]
    simp at hc
    simp [hc]

theorem splitFrag_fst_no_hash (l : List Char) : '#' ∉ (splitFrag l).1 := by
  unfold splitFrag
  cases hsf : splitFirstL '#' l with
  | none => exact splitFirstL_eq_none_iff.mp hsf
  | some p =>
    obtain ⟨a, b⟩ := p
    exact (splitFirstL_eq_some hsf).2

theorem splitQuery_fst_subset (l : List Char) : (splitQuery l).1 ⊆ l := by
  unfold splitQuery
  cases hsf : splitFirstL '?' l with
  | none => exact fun c hc => hc
  | some p =>
    obtain ⟨a, b⟩ := p
    obtain ⟨hdec, _⟩ := splitFirstL_eq_some hsf
    intro c hc
    rw [hdec]
    simp at hc
    simp [hc]

theorem splitQuery_snd_subset (l : List Char) : (splitQuery l).2 ⊆ l := by
  unfold splitQuery
  cases hsf : splitFirstL '?' l with
  | none =>
    intro c hc
    cases hc
  | some p =>
    obtain ⟨a, b⟩ := p
    obtain ⟨hdec, _⟩ := splitFirstL_eq_some hsf
    intro c hc
    rw [hdec]
    simp at hc
    simp [hc]

theorem splitQuery_fst_no_qmark (l : List Char) : '?' ∉ (splitQuery l).1 := by
  unfold splitQuery
  cases hsf : splitFirstL '?' l with
  | none => exact splitFirstL_eq_none_iff.mp hsf
  | some p =>
    obtain ⟨a, b⟩ := p
    exact (splitFirstL_eq_some hsf).2

/-- Parsing the kind of string `normalize_url` emits gives back pieces that
rebuild the same string: `normalize_url` is a fixed point on such strings. -/
theorem normalize_shape (S NL P' Q : List Char) (hs : NormShape S NL P' Q) :
    normalize_url ⟨S ++ ':' :: '/' :: '/' :: (NL ++ (P' ++ qpart Q))⟩ =
    ⟨S ++ ':' :: '/' :: '/' :: (NL ++ (P' ++ qpart Q))⟩ := by
  set T := P' ++ qpart Q with hT
  set L := S ++ ':' :: '/' :: '/' :: (NL ++ T) with hL
  -- every character of L survives the tab/CR/LF filter
  have hclean : ∀ c ∈ L, badUrlChar c = false := by
    intro c hc
    rw [hL] at hc
    rcases List.mem_append.mp hc with hcS | hcr
    · exact badUrlChar_of_schemeChar (hs.s_scheme c hcS)
    · rcases List.mem_cons.mp hcr with rfl | hcr
      · rfl
      rcases List.mem_cons.mp hcr with rfl | hcr
      · rfl
      rcases List.mem_cons.mp hcr with rfl | hcr
      · rfl
      rcases List.mem_append.mp hcr with hcNL | hcT
      · exact hs.clean_all c (by simp [hcNL])
      rcases List.mem_append.mp hcT with hcP | hcq
      · exact hs.clean_all c (by simp [hcP])
      rcases mem_qpart hcq with rfl | hcQ
      · rfl
      · exact hs.clean_all c (by simp [hcQ])
  have hfilter : L.filter (fun c => !badUrlChar c) = L :=
    List.filter_eq_self.mpr (fun a ha => by rw [hclean a ha]; rfl)
  -- scheme detection recovers S
  have hcolon : ':' ∉ S := fun hc =>
    isSchemeChar_ne_colon (hs.s_scheme ':' hc) rfl
  have hsf : splitFirstL ':' L = some (S, '/' :: '/' :: (NL ++ T)) := by
    rw [hL]
    exact splitFirstL_append _ hcolon
  have hsch : splitScheme L = (S, '/' :: '/' :: (NL ++ T)) := by
    obtain ⟨c, t, hS, hal⟩ := hs.s_head
    have hall : (c :: t).all isSchemeChar = true :=
      List.all_eq_true.mpr (fun x hx => hs.s_scheme x (by rw [hS]; exact hx))
    have hcond : (isAsciiAlpha c && (c :: t).all isSchemeChar) = true := by
      rw [Bool.and_eq_true]
      exact ⟨hal, hall⟩
    simp only [splitScheme, hsf, hS, hcond, if_true]
    rw [← hS, hs.s_low]
  -- netloc splitting
  have hnet : splitNetloc ('/' :: '/' :: (NL ++ T)) =
      ((NL ++ T).takeWhile notDelim, (NL ++ T).dropWhile notDelim) := rfl
  have htwNL : (NL ++ T).takeWhile notDelim = NL ++ T.takeWhile notDelim :=
    takeWhile_append_all T hs.nl_delim
  have hdwNL : (NL ++ T).dropWhile notDelim = T.dropWhile notDelim :=
    dropWhile_append_all T hs.nl_delim
  -- the String we must show is a fixed point
  have hdq : ("?" : String).data = ['?'] := rfl
  have hdsep : ("://" : String).data = [':', '/', '/'] := rfl
  by_cases hPslash : '/' ∈ P'
  · -- the path still contains a slash after netloc splitting
    have hstop : ∃ x ∈ P', notDelim x = false := ⟨'/', hPslash, rfl⟩
    have htwT : T.takeWhile notDelim = P'.takeWhile notDelim := by
      rw [hT]
      exact takeWhile_append_stop (qpart Q) hstop
    have hdwT : T.dropWhile notDelim = P'.dropWhile notDelim ++ qpart Q := by
      rw [hT]
      exact dropWhile_append_stop (qpart Q) hstop
    set P2 := P'.dropWhile notDelim with hP2
    have hP2ne : P2 ≠ [] := dropWhile_ne_nil_of_stop hstop
    have hP2sub : P2 ⊆ P' := dropWhile_subset notDelim P'
    have hnohash : '#' ∉ P2 ++ qpart Q := by
      intro hmem
      rcases List.mem_append.mp hmem with h1 | h2
      · exact hs.no_hash_p (hP2sub h1)
      · rcases mem_qpart h2 with he | h3
        · exact absurd he (by decide)
        · exact hs.no_hash_q h3
    have hfr : splitFrag (P2 ++ qpart Q) = (P2 ++ qpart Q, []) :=
      splitFrag_of_not_mem hnohash
    have hq2 : '?' ∉ P2 := fun hq => hs.no_q (hP2sub hq)
    have hquery : splitQuery (P2 ++ qpart Q) = (P2, Q) := by
      by_cases hQ : Q = []
      · subst hQ
        have hq0 : qpart ([] : List Char) = [] := rfl
        rw [hq0, List.append_nil]
        exact splitQuery_of_not_mem hq2
      · rw [qpart, if_neg hQ]
        exact splitQuery_append Q hq2
    have hsemi2 : ';' ∉ P2 := fun hq => hs.no_semi (hP2sub hq)
    have hsplit : P'.takeWhile notDelim ++ P2 = P' := by
      rw [hP2]
      exact List.takeWhile_append_dropWhile notDelim P'
    have hPtrail : ∃ a t, P'.reverse = a :: t ∧ (a == '/') = false := by
      rcases hs.p_trail with h | h
      · exfalso
        rw [h] at hPslash
        cases hPslash
      · exact h
    obtain ⟨a, t, hrev, ha⟩ := hPtrail
    have hrs : rstripSlashL P2 = P2 := by
      have h1 : P'.reverse = P2.reverse ++ (P'.takeWhile notDelim).reverse := by
        rw [← List.reverse_append, hsplit]
      cases hP2r : P2.reverse with
      | nil =>
        exfalso
        apply hP2ne
        simpa using congrArg List.reverse hP2r
      | cons b t' =>
        rw [hP2r, hrev] at h1
        injection h1 with hab _
        refine rstripSlashL_eq_self (Or.inr ⟨b, t', hP2r, ?_⟩)
        rw [← hab]
        exact ha
    have hup : urlparse ⟨L⟩ =
        ⟨⟨S⟩, ⟨NL ++ P'.takeWhile notDelim⟩, ⟨P2⟩, ⟨[]⟩, ⟨Q⟩, ⟨[]⟩⟩ := by
      rw [urlparse, data_mk, urlparseL]
      simp only [hfilter, hsch, hnet, htwNL, hdwNL, htwT, hdwT, hfr, hquery]
      rw [if_neg (fun hc => hsemi2 hc.1)]
    rw [normalize_url, hup]
    simp only [data_mk, hrs]
    by_cases hQ : Q = []
    · rw [if_neg (by simp [mk_eq_empty_iff, hQ])]
      apply string_ext
      simp only [String.data_append, data_mk, hdsep]
      rw [hL, hT, hQ]
      have hq0 : qpart ([] : List Char) = [] := rfl
      rw [hq0, List.append_nil]
      conv_rhs => rw [← hsplit]
      simp [List.append_assoc]
    · rw [if_pos (by simp [mk_eq_empty_iff, hQ])]
      apply string_ext
      simp only [String.data_append, data_mk, hdsep, hdq]
      rw [hL, hT]
      rw [qpart, if_neg hQ]
      conv_rhs => rw [← hsplit]
      simp [List.append_assoc]
  · -- no slash in the path: everything up to `?` is absorbed into netloc
    have hall : ∀ x ∈ P', notDelim x = true := by
      intro x hx
      rw [notDelim_true_iff]
      refine ⟨?_, ?_, ?_⟩
      · intro he
        rw [he] at hx
        exact hPslash hx
      · intro he
        rw [he] at hx
        exact hs.no_q hx
      · intro he
        rw [he] at hx
        exact hs.no_hash_p hx
    have htwT : T.takeWhile notDelim = P' ++ (qpart Q).takeWhile notDelim := by
      rw [hT]
      exact takeWhile_append_all (qpart Q) hall
    have hdwT : T.dropWhile notDelim = (qpart Q).dropWhile notDelim := by
      rw [hT]
      exact dropWhile_append_all (qpart Q) hall
    by_cases hQ : Q = []
    · have hqnil : qpart Q = [] := by simp [qpart, hQ]
      have hup : urlparse ⟨L⟩ = ⟨⟨S⟩, ⟨NL ++ P'⟩, ⟨[]⟩, ⟨[]⟩, ⟨[]⟩, ⟨[]⟩⟩ := by
        rw [urlparse, data_mk, urlparseL]
        simp only [hfilter, hsch, hnet, htwNL, hdwNL, htwT, hdwT, hqnil]
        simp only [List.takeWhile_nil, List.dropWhile_nil, List.append_nil]
        have hfr0 : splitFrag ([] : List Char) = ([], []) := rfl
        have hq0 : splitQuery ([] : List Char) = ([], []) := rfl
        simp only [hfr0, hq0]
        rw [if_neg (fun hc => by simp at hc)]
      rw [normalize_url, hup]
      simp only [data_mk]
      rw [if_neg (by simp [mk_eq_empty_iff])]
      apply string_ext
      have hrs0 : rstripSlashL ([] : List Char) = [] := rfl
      simp only [String.data_append, data_mk, hdsep, hrs0]
      rw [hL, hT, hqnil, List.append_nil]
      simp [List.append_assoc]
    · have hqcons : qpart Q = '?' :: Q := by simp [qpart, hQ]
      have htk : ('?' :: Q).takeWhile notDelim = [] := rfl
      have hdk : ('?' :: Q).dropWhile notDelim = '?' :: Q := rfl
      have hfr : splitFrag ('?' :: Q) = ('?' :: Q, []) := by
        apply splitFrag_of_not_mem
        intro hmem
        rcases List.mem_cons.mp hmem with he | hin
        · exact absurd he (by decide)
        · exact hs.no_hash_q hin
      have hq' : splitQuery ('?' :: Q) = ([], Q) := by
        have : splitFirstL '?' ('?' :: Q) = some ([], Q) := by
          simp [splitFirstL]
        simp [splitQuery, this]
      have hup : urlparse ⟨L⟩ = ⟨⟨S⟩, ⟨NL ++ P'⟩, ⟨[]⟩, ⟨[]⟩, ⟨Q⟩, ⟨[]⟩⟩ := by
        rw [urlparse, data_mk, urlparseL]
        simp only [hfilter, hsch, hnet, htwNL, hdwNL, htwT, hdwT, hqcons,
          htk, hdk, hfr, hq', List.append_nil]
        rw [if_neg (fun hc => by simp at hc)]
      rw [normalize_url, hup]
      simp only [data_mk]
      rw [if_pos (by simp [mk_eq_empty_iff, hQ])]
      apply string_ext
      have hrs0 : rstripSlashL ([] : List Char) = [] := rfl
      simp only [String.data_append, data_mk, hdsep, hdq, hrs0]
      rw [hL, hT, hqcons]
      simp [List.append_assoc]

/-- For any URL with a detected scheme and no semicolon, `normalize_url`
produces a string of the fixed-point shape of `normalize_shape`. -/
theorem normalize_decomp (u : String) (hs : (urlparse u).scheme ≠ "")
    (hsemi : ';' ∉ u.data) :
    ∃ S NL P' Q, NormShape S NL P' Q ∧
      (normalize_url u).data =
        S ++ ':' :: '/' :: '/' :: (NL ++ (P' ++ qpart Q)) := by
  obtain ⟨S, r1, hsch⟩ : ∃ S r1,
      splitScheme (u.data.filter (fun c => !badUrlChar c)) = (S, r1) :=
    ⟨_, _, rfl⟩
  obtain ⟨NL, r2, hnet⟩ : ∃ NL r2, splitNetloc r1 = (NL, r2) := ⟨_, _, rfl⟩
  obtain ⟨r3, F, hfr⟩ : ∃ r3 F, splitFrag r2 = (r3, F) := ⟨_, _, rfl⟩
  obtain ⟨P0, Q, hq⟩ : ∃ P0 Q, splitQuery r3 = (P0, Q) := ⟨_, _, rfl⟩
  have hclean : ∀ c ∈ u.data.filter (fun c => !badUrlChar c),
      badUrlChar c = false := fun c hc => by
    simpa using (List.mem_filter.mp hc).2
  have hsemil : ';' ∉ u.data.filter (fun c => !badUrlChar c) :=
    fun hc => hsemi ((List.filter_sublist u.data).subset hc)
  have hne : S ≠ [] := by
    intro h0
    apply hs
    rw [splitScheme_scheme_mk, hsch, h0]
  obtain ⟨hhead, hallS, hlow, hr1sub⟩ := splitScheme_detected hsch hne
  have hnl_delim : ∀ c ∈ NL, notDelim c = true := fun c hc =>
    splitNetloc_fst_delim r1 c (by rw [hnet]; exact hc)
  have hnlsub : NL ⊆ r1 := fun c hc =>
    splitNetloc_fst_subset r1 (by rw [hnet]; exact hc)
  have hr2sub : r2 ⊆ r1 := fun c hc =>
    splitNetloc_snd_subset r1 (by rw [hnet]; exact hc)
  have hr3sub : r3 ⊆ r2 := fun c hc =>
    splitFrag_fst_subset r2 (by rw [hfr]; exact hc)
  have hr3nohash : '#' ∉ r3 := fun hc =>
    splitFrag_fst_no_hash r2 (by rw [hfr]; exact hc)
  have hP0sub : P0 ⊆ r3 := fun c hc =>
    splitQuery_fst_subset r3 (by rw [hq]; exact hc)
  have hQsub : Q ⊆ r3 := fun c hc =>
    splitQuery_snd_subset r3 (by rw [hq]; exact hc)
  have hP0noq : '?' ∉ P0 := fun hc =>
    splitQuery_fst_no_qmark r3 (by rw [hq]; exact hc)
  have hP0semi : ';' ∉ P0 := fun hc =>
    hsemil (hr1sub (hr2sub (hr3sub (hP0sub hc))))
  have hPsub : rstripSlashL P0 ⊆ P0 := rstripSlashL_subset P0
  have hup : urlparse u = ⟨⟨S⟩, ⟨NL⟩, ⟨P0⟩, ⟨[]⟩, ⟨Q⟩, ⟨F⟩⟩ := by
    rw [urlparse, urlparseL]
    simp only [hsch, hnet, hfr, hq]
    rw [if_neg (fun hc => hP0semi hc.1)]
  refine ⟨S, NL, rstripSlashL P0, Q, ?_, ?_⟩
  · refine ⟨hne, hhead, hallS, hlow, hnl_delim, ?_, ?_, ?_, ?_, ?_,
      rstripSlashL_trail P0⟩
    · intro c hc
      rcases List.mem_append.mp hc with h1 | h2
      · rcases List.mem_append.mp h1 with h3 | h4
        · exact hclean c (hr1sub (hnlsub h3))
        · exact hclean c (hr1sub (hr2sub (hr3sub (hP0sub (hPsub h4)))))
      · exact hclean c (hr1sub (hr2sub (hr3sub (hQsub h2))))
    · exact fun hc => hr3nohash (hP0sub (hPsub hc))
    · exact fun hc => hr3nohash (hQsub hc)
    · exact fun hc => hP0noq (hPsub hc)
    · exact fun hc => hP0semi (hPsub hc)
  · rw [normalize_url, hup]
    simp only [data_mk]
    by_cases hQ0 : Q = []
    · rw [if_neg (by simp [mk_eq_empty_iff, hQ0])]
      have hq0 : qpart Q = [] := by rw [hQ0]; rfl
      rw [hq0]
      simp [String.data_append, data_mk, List.append_assoc]
    · rw [if_pos (by simp [mk_eq_empty_iff, hQ0])]
      rw [qpart, if_neg hQ0]
      simp [String.data_append, data_mk, List.append_assoc]

theorem takeWhile_append_flat {α} {p : α → Bool} (xs ys : List α)
    (hys : ys.takeWhile p = []) :
    (xs ++ ys).takeWhile p = xs.takeWhile p ∧
    (xs ++ ys).dropWhile p = xs.dropWhile p ++ ys := by
  by_cases hall : ∀ x ∈ xs, p x = true
  · constructor
    · rw [takeWhile_append_all ys hall, List.takeWhile_eq_self_iff.mpr hall,
        hys, List.append_nil]
    · rw [dropWhile_append_all ys hall, List.dropWhile_eq_nil_iff.mpr hall,
        List.nil_append]
      have hsplit := List.takeWhile_append_dropWhile p ys
      rw [hys, List.nil_append] at hsplit
      exact hsplit
  · have hex : ∃ x ∈ xs, p x = false := by
      push_neg at hall
      obtain ⟨x, hx, hpx⟩ := hall
      exact ⟨x, hx, Bool.eq_false_iff.mpr hpx⟩
    exact ⟨takeWhile_append_stop ys hex, dropWhile_append_stop ys hex⟩

theorem splitQuery_qpart {Pd Q : List Char} (hq2 : '?' ∉ Pd) :
    splitQuery (Pd ++ qpart Q) = (Pd, Q) := by
  by_cases hQ : Q = []
  · subst hQ
    have hq0 : qpart ([] : List Char) = [] := rfl
    rw [hq0, List.append_nil]
    exact splitQuery_of_not_mem hq2
  · rw [qpart, if_neg hQ]
    exact splitQuery_append Q hq2

theorem qf_takeWhile_nil (Q F : List Char) :
    (qpart Q ++ fpart F).takeWhile notDelim = [] := by
  by_cases hQ : Q = []
  · have hq0 : qpart Q = [] := by rw [hQ]; rfl
    rw [hq0, List.nil_append]
    by_cases hF : F = []
    · rw [fpart, if_pos hF]
      rfl
    · rw [fpart, if_neg hF]
      rfl
  · rw [qpart, if_neg hQ]
    rfl

theorem rstripSlashL_append_slash (l : List Char) :
    rstripSlashL (l ++ ['/']) = rstripSlashL l := by
  unfold rstripSlashL
  rw [List.reverse_append]
  rfl

/-- `urlparse` recovers the components of a well-formed rendered URL (with
the netloc absorbing any path prefix up to the first delimiter, which is
empty for paths that start with `/`). -/
theorem parse_render (S NL P Q F : List Char) (h : RenderOk S NL P Q F) :
    urlparse (renderUrl S NL P Q F) =
      ⟨⟨S.map lowerChar⟩, ⟨NL ++ P.takeWhile notDelim⟩,
       ⟨P.dropWhile notDelim⟩, ⟨[]⟩, ⟨Q⟩, ⟨F⟩⟩ := by
  set ys := qpart Q ++ fpart F with hys
  set L := S ++ ':' :: '/' :: '/' :: (NL ++ (P ++ qpart Q ++ fpart F)) with hL
  have hTys : P ++ qpart Q ++ fpart F = P ++ ys := by
    rw [hys, List.append_assoc]
  have hclean : ∀ c ∈ L, badUrlChar c = false := by
    intro c hc
    rw [hL] at hc
    rcases List.mem_append.mp hc with hcS | hcr
    · exact badUrlChar_of_schemeChar (h.s_scheme c hcS)
    · rcases List.mem_cons.mp hcr with rfl | hcr
      · rfl
      rcases List.mem_cons.mp hcr with rfl | hcr
      · rfl
      rcases List.mem_cons.mp hcr with rfl | hcr
      · rfl
      rcases List.mem_append.mp hcr with hcNL | hcT
      · exact h.clean_all c (by simp [hcNL])
      rcases List.mem_append.mp hcT with hcPQ | hcF
      · rcases List.mem_append.mp hcPQ with hcP | hcq
        · exact h.clean_all c (by simp [hcP])
        · rcases mem_qpart hcq with rfl | hcQ
          · rfl
          · exact h.clean_all c (by simp [hcQ])
      · by_cases hF : F = []
        · rw [fpart, if_pos hF] at hcF
          cases hcF
        · rw [fpart, if_neg hF] at hcF
          rcases List.mem_cons.mp hcF with rfl | hcF
          · rfl
          · exact h.clean_all c (by simp [hcF])
  have hfilter : L.filter (fun c => !badUrlChar c) = L :=
    List.filter_eq_self.mpr (fun a ha => by rw [hclean a ha]; rfl)
  have hcolon : ':' ∉ S := fun hc =>
    isSchemeChar_ne_colon (h.s_scheme ':' hc) rfl
  have hsf : splitFirstL ':' L =
      some (S, '/' :: '/' :: (NL ++ (P ++ qpart Q ++ fpart F))) := by
    rw [hL]
    exact splitFirstL_append _ hcolon
  have hsch : splitScheme L =
      (S.map lowerChar, '/' :: '/' :: (NL ++ (P ++ qpart Q ++ fpart F))) := by
    obtain ⟨c, t, hS, hal⟩ := h.s_head
    have hall : (c :: t).all isSchemeChar = true :=
      List.all_eq_true.mpr (fun x hx => h.s_scheme x (by rw [hS]; exact hx))
    have hcond : (isAsciiAlpha c && (c :: t).all isSchemeChar) = true := by
      rw [Bool.and_eq_true]
      exact ⟨hal, hall⟩
    simp only [splitScheme, hsf, hS, hcond, if_true]
  have hnet : splitNetloc ('/' :: '/' :: (NL ++ (P ++ qpart Q ++ fpart F))) =
      ((NL ++ (P ++ qpart Q ++ fpart F)).takeWhile notDelim,
       (NL ++ (P ++ qpart Q ++ fpart F)).dropWhile notDelim) := rfl
  have hflat := takeWhile_append_flat P ys (qf_takeWhile_nil Q F)
  have htw : (NL ++ (P ++ qpart Q ++ fpart F)).takeWhile notDelim =
      NL ++ P.takeWhile notDelim := by
    rw [hTys, takeWhile_append_all (P ++ ys) h.nl_delim, hflat.1]
  have hdw : (NL ++ (P ++ qpart Q ++ fpart F)).dropWhile notDelim =
      P.dropWhile notDelim ++ ys := by
    rw [hTys, dropWhile_append_all (P ++ ys) h.nl_delim, hflat.2]
  set Pd := P.dropWhile notDelim with hPd
  have hPdsub : Pd ⊆ P := dropWhile_subset notDelim P
  have hnohash : '#' ∉ Pd ++ qpart Q := by
    intro hmem
    rcases List.mem_append.mp hmem with h1 | h2
    · exact h.no_hash_p (hPdsub h1)
    · rcases mem_qpart h2 with he | h3
      · exact absurd he (by decide)
      · exact h.no_hash_q h3
  have hfr : splitFrag (Pd ++ ys) = (Pd ++ qpart Q, F) := by
    by_cases hF : F = []
    · have hf0 : fpart F = [] := by rw [hF]; rfl
      rw [hys, hf0, List.append_nil, hF]
      exact splitFrag_of_not_mem hnohash
    · have hf1 : fpart F = '#' :: F := by rw [fpart, if_neg hF]
      rw [hys, hf1, ← List.append_assoc]
      unfold splitFrag
      rw [splitFirstL_append F hnohash]
  have hq2 : '?' ∉ Pd := fun hq => h.no_q (hPdsub hq)
  have hquery : splitQuery (Pd ++ qpart Q) = (Pd, Q) := splitQuery_qpart hq2
  have hsemi2 : ';' ∉ Pd := fun hq => h.no_semi (hPdsub hq)
  rw [renderUrl, ← hL, urlparse, data_mk, urlparseL]
  simp only [hfilter, hsch, hnet, htw, hdw, hfr, hquery]
  rw [if_neg (fun hc => hsemi2 hc.1)]

/-- `normalize_url` of a well-formed rendered URL, in closed form. -/
theorem normalize_render (S NL P Q F : List Char) (h : RenderOk S NL P Q F) :
    normalize_url (renderUrl S NL P Q F) =
      ⟨S.map lowerChar ++ ':' :: '/' :: '/' ::
        (NL ++ P.takeWhile notDelim ++
          rstripSlashL (P.dropWhile notDelim) ++ qpart Q)⟩ := by
  rw [normalize_url, parse_render S NL P Q F h]
  simp only [data_mk]
  by_cases hQ : Q = []
  · rw [if_neg (by simp [mk_eq_empty_iff, hQ])]
    apply string_ext
    have hq0 : qpart Q = [] := by rw [hQ]; rfl
    simp [String.data_append, data_mk, hq0, List.append_assoc]
  · rw [if_pos (by simp [mk_eq_empty_iff, hQ])]
    apply string_ext
    rw [qpart, if_neg hQ]
    simp [String.data_append, data_mk, List.append_assoc]

theorem renderOk_slash {S NL P Q F : List Char} (h : RenderOk S NL P Q F) :
    RenderOk S NL (P ++ ['/']) Q F := by
  refine ⟨h.s_ne, h.s_head, h.s_scheme, h.nl_delim, ?_, ?_, h.no_hash_q,
    ?_, ?_⟩
  · intro c hc
    simp only [List.mem_append, List.mem_singleton] at hc
    have hmem : c = '/' ∨ c ∈ NL ++ P ++ Q ++ F := by
      simp only [List.mem_append]
      tauto
    rcases hmem with rfl | hm
    · rfl
    · exact h.clean_all c hm
  · intro hc
    rcases List.mem_append.mp hc with h1 | h2
    · exact h.no_hash_p h1
    · exact absurd h2 (by decide)
  · intro hc
    rcases List.mem_append.mp hc with h1 | h2
    · exact h.no_q h1
    · exact absurd h2 (by decide)
  · intro hc
    rcases List.mem_append.mp hc with h1 | h2
    · exact h.no_semi h1
    · exact absurd h2 (by decide)

/-- `normalize_url` is idempotent on URLs with a detected scheme and no
semicolon. -/
theorem normalize_url_idem (u : String) (hs : (urlparse u).scheme ≠ "")
    (hsemi : ';' ∉ u.data) :
    normalize_url (normalize_url u) = normalize_url u := by
  obtain ⟨S, NL, P', Q, hsh, hdata⟩ := normalize_decomp u hs hsemi
  have hN : normalize_url u =
      ⟨S ++ ':' :: '/' :: '/' :: (NL ++ (P' ++ qpart Q))⟩ := string_ext hdata
  rw [hN]
  exact normalize_shape S NL P' Q hsh

/-- A trailing slash on the path of a well-formed URL does not change the
canonical form. -/
theorem normalize_render_slash (S NL P Q F : List Char)
    (h : RenderOk S NL P Q F) :
    normalize_url (renderUrl S NL (P ++ ['/']) Q F) =
      normalize_url (renderUrl S NL P Q F) := by
  rw [normalize_render S NL (P ++ ['/']) Q F (renderOk_slash h),
      normalize_render S NL P Q F h]
  have hflat := takeWhile_append_flat P ['/']
    (by rfl : (['/'] : List Char).takeWhile notDelim = [])
  rw [hflat.1, hflat.2, rstripSlashL_append_slash]

/-- The fragment of a well-formed URL does not affect the canonical form. -/
theorem normalize_render_frag (S NL P Q F1 F2 : List Char)
    (h1 : RenderOk S NL P Q F1) (h2 : RenderOk S NL P Q F2) :
    normalize_url (renderUrl S NL P Q F1) =
      normalize_url (renderUrl S NL P Q F2) := by
  rw [normalize_render S NL P Q F1 h1, normalize_render S NL P Q F2 h2]

/-! ### Claim C4 -/

/-- C4 (counterexample): `normalize_url` is *not* idempotent on every URL
string.  A scheme-less URL gains a spurious `://` on every pass, and a URL
whose path ends in `;…/` loses a path segment on the second pass (the
params split of `urlparse` fires only after the trailing slash was
stripped). -/
theorem c4_counterexample :
    normalize_url (normalize_url "a.com/x") ≠ normalize_url "a.com/x" ∧
    normalize_url (normalize_url "https://h/a;b/") ≠
      normalize_url "https://h/a;b/" := by
  constructor
  · decide
  · decide

/-- C4 (amended): `normalize_url` is idempotent on every URL string in which
`urlparse` detects a scheme and which contains no semicolon (and, staying
within the modelled non-raising fragment of `urlparse`, no square bracket);
two URLs differing only by a trailing slash on the path, or only by their
fragment, canonicalize to the same string, e.g.
`normalize_url "https://a.com/x/" = normalize_url "https://a.com/x"`. -/
theorem c4_normalize_url_amended :
    (∀ u : String, (urlparse u).scheme ≠ "" → ';' ∉ u.data →
      '[' ∉ u.data → ']' ∉ u.data →
      normalize_url (normalize_url u) = normalize_url u) ∧
    normalize_url "https://a.com/x/" = normalize_url "https://a.com/x" ∧
    (∀ S NL P Q F, RenderOk S NL P Q F →
      normalize_url (renderUrl S NL (P ++ ['/']) Q F) =
        normalize_url (renderUrl S NL P Q F)) ∧
    (∀ S NL P Q F1 F2, RenderOk S NL P Q F1 → RenderOk S NL P Q F2 →
      normalize_url (renderUrl S NL P Q F1) =
        normalize_url (renderUrl S NL P Q F2)) := by
  refine ⟨fun u hs hsemi _ _ => normalize_url_idem u hs hsemi, by decide,
    ?_, ?_⟩
  · exact fun S NL P Q F h => normalize_render_slash S NL P Q F h
  · exact fun S NL P Q F1 F2 h1 h2 => normalize_render_frag S NL P Q F1 F2 h1 h2

/-- C4 witness: the amended idempotence theorem applied at a concrete URL. -/
theorem c4_witness :
    normalize_url (normalize_url "https://Ex.com/a/b/?q=1#f") =
      normalize_url "https://Ex.com/a/b/?q=1#f" :=
  c4_normalize_url_amended.1 "https://Ex.com/a/b/?q=1#f" (by decide)
    (by decide) (by decide) (by decide)

/-- Whenever the fueled evaluator finishes, it agrees with `crawlLoop`. -/
theorem crawlLoopF_eq (web : Web) (baseDomain : String) (pfx : Option String)
    (maxPages : Nat) (maxDepth : Option Nat) :
    ∀ (fuel : Nat) (queue : List QItem) (procd : List (String × Nat))
      (pages : List PageR) (allLinks : List LinkR) (deq enq : List String)
      (out : CrawlOut),
      crawlLoopF web baseDomain pfx maxPages maxDepth fuel queue procd pages
        allLinks deq enq = some out →
      crawlLoop web baseDomain pfx maxPages maxDepth queue procd pages
        allLinks deq enq = out := by
  intro fuel
  induction fuel with
  | zero => intro queue procd pages allLinks deq enq out hout; simp [crawlLoopF] at hout
  | succ fuel ih =>
    intro queue procd pages allLinks deq enq out hout
    match queue with
    | [] =>
      simp [crawlLoopF] at hout
      simp [crawlLoop, ← hout]
    | item :: rest =>
      rw [crawlLoop]
      rw [crawlLoopF] at hout
      split
      case isTrue h =>
        rw [if_pos h] at hout
        split
        case isTrue h1 =>
          rw [if_pos h1] at hout
          exact ih _ _ _ _ _ _ _ hout
        case isFalse h1 =>
          rw [if_neg h1] at hout
          split
          case isTrue h2 =>
            rw [if_pos h2] at hout
            exact ih _ _ _ _ _ _ _ hout
          case isFalse h2 =>
            rw [if_neg h2] at hout
            split
            case isTrue h3 =>
              rw [if_pos h3] at hout
              exact ih _ _ _ _ _ _ _ hout
            case isFalse h3 =>
              rw [if_neg h3] at hout
              split
              case h_1 title content links hw =>
                rw [hw] at hout
                simp only at hout
                split
                case isTrue h4 =>
                  rw [if_pos h4] at hout
                  split
                  case isTrue h5 =>
                    rw [if_pos h5] at hout
                    exact ih _ _ _ _ _ _ _ hout
                  case isFalse h5 =>
                    rw [if_neg h5] at hout
                    exact ih _ _ _ _ _ _ _ hout
                case isFalse h4 =>
                  rw [if_neg h4] at hout
                  exact ih _ _ _ _ _ _ _ hout
              case h_2 hw =>
                rw [hw] at hout
                simp only at hout
                exact ih _ _ _ _ _ _ _ hout
      case isFalse h =>
        rw [if_neg h] at hout
        simp at hout
        simp [← hout]

/-! ### One equation lemma per branch of the crawl loop -/

theorem crawlLoop_nil (web : Web) (bd : String) (pfx : Option String)
    (mp : Nat) (md : Option Nat) (procd : List (String × Nat))
    (pages : List PageR) (al : List LinkR) (deq enq : List String) :
    crawlLoop web bd pfx mp md [] procd pages al deq enq =
      ⟨pages, al, deq, procd, enq⟩ := by
  rw [crawlLoop]

theorem crawlLoop_budget (web : Web) (bd : String) (pfx : Option String)
    (mp : Nat) (md : Option Nat) (item : QItem) (rest : List QItem)
    (procd : List (String × Nat)) (pages : List PageR) (al : List LinkR)
    (deq enq : List String) (h : ¬ pages.length < mp) :
    crawlLoop web bd pfx mp md (item :: rest) procd pages al deq enq =
      ⟨pages, al, deq, procd, enq⟩ := by
  rw [crawlLoop, dif_neg h]

theorem crawlLoop_visited (web : Web) (bd : String) (pfx : Option String)
    (mp : Nat) (md : Option Nat) (item : QItem) (rest : List QItem)
    (procd : List (String × Nat)) (pages : List PageR) (al : List LinkR)
    (deq enq : List String) (h : pages.length < mp)
    (hv : item.url ∈ procd.map Prod.fst) :
    crawlLoop web bd pfx mp md (item :: rest) procd pages al deq enq =
      crawlLoop web bd pfx mp md rest procd pages al (deq ++ [item.url]) enq := by
  rw [crawlLoop, dif_pos h, if_pos hv]

theorem crawlLoop_domain (web : Web) (bd : String) (pfx : Option String)
    (mp : Nat) (md : Option Nat) (item : QItem) (rest : List QItem)
    (procd : List (String × Nat)) (pages : List PageR) (al : List LinkR)
    (deq enq : List String) (h : pages.length < mp)
    (hv : item.url ∉ procd.map Prod.fst)
    (hd : (urlparse item.url).netloc ≠ bd) :
    crawlLoop web bd pfx mp md (item :: rest) procd pages al deq enq =
      crawlLoop web bd pfx mp md rest procd pages al (deq ++ [item.url]) enq := by
  rw [crawlLoop, dif_pos h, if_neg hv, if_pos hd]

theorem crawlLoop_pfx (web : Web) (bd : String) (pfx : Option String)
    (mp : Nat) (md : Option Nat) (item : QItem) (rest : List QItem)
    (procd : List (String × Nat)) (pages : List PageR) (al : List LinkR)
    (deq enq : List String) (h : pages.length < mp)
    (hv : item.url ∉ procd.map Prod.fst)
    (hd : ¬ (urlparse item.url).netloc ≠ bd)
    (hp : pfxBlocks pfx (urlparse item.url).path = true) :
    crawlLoop web bd pfx mp md (item :: rest) procd pages al deq enq =
      crawlLoop web bd pfx mp md rest procd pages al (deq ++ [item.url]) enq := by
  rw [crawlLoop, dif_pos h, if_neg hv, if_neg hd, if_pos hp]

theorem crawlLoop_fail (web : Web) (bd : String) (pfx : Option String)
    (mp : Nat) (md : Option Nat) (item : QItem) (rest : List QItem)
    (procd : List (String × Nat)) (pages : List PageR) (al : List LinkR)
    (deq enq : List String) (h : pages.length < mp)
    (hv : item.url ∉ procd.map Prod.fst)
    (hd : ¬ (urlparse item.url).netloc ≠ bd)
    (hp : ¬ pfxBlocks pfx (urlparse item.url).path = true)
    (hw : web item.url = none) :
    crawlLoop web bd pfx mp md (item :: rest) procd pages al deq enq =
      crawlLoop web bd pfx mp md rest (procd ++ [(item.url, item.depth)])
        pages al (deq ++ [item.url]) enq := by
  rw [crawlLoop, dif_pos h, if_neg hv, if_neg hd, if_neg hp]
  rw [hw]

theorem crawlLoop_empty (web : Web) (bd : String) (pfx : Option String)
    (mp : Nat) (md : Option Nat) (item : QItem) (rest : List QItem)
    (procd : List (String × Nat)) (pages : List PageR) (al : List LinkR)
    (deq enq : List String) (h : pages.length < mp)
    (hv : item.url ∉ procd.map Prod.fst)
    (hd : ¬ (urlparse item.url).netloc ≠ bd)
    (hp : ¬ pfxBlocks pfx (urlparse item.url).path = true)
    (title content : String) (links : List LinkR)
    (hw : web item.url = some (title, content, links))
    (hc : ¬ pyStrip content ≠ "") :
    crawlLoop web bd pfx mp md (item :: rest) procd pages al deq enq =
      crawlLoop web bd pfx mp md rest (procd ++ [(item.url, item.depth)])
        pages al (deq ++ [item.url]) enq := by
  rw [crawlLoop, dif_pos h, if_neg hv, if_neg hd, if_neg hp]
  rw [hw]
  simp only [if_neg hc]

theorem crawlLoop_page_noexp (web : Web) (bd : String) (pfx : Option String)
    (mp : Nat) (md : Option Nat) (item : QItem) (rest : List QItem)
    (procd : List (String × Nat)) (pages : List PageR) (al : List LinkR)
    (deq enq : List String) (h : pages.length < mp)
    (hv : item.url ∉ procd.map Prod.fst)
    (hd : ¬ (urlparse item.url).netloc ≠ bd)
    (hp : ¬ pfxBlocks pfx (urlparse item.url).path = true)
    (title content : String) (links : List LinkR)
    (hw : web item.url = some (title, content, links))
    (hc : pyStrip content ≠ "") (hdep : ¬ depthOk md item.depth = true) :
    crawlLoop web bd pfx mp md (item :: rest) procd pages al deq enq =
      crawlLoop web bd pfx mp md rest (procd ++ [(item.url, item.depth)])
        (pages ++ [⟨item.url, title, content⟩]) al (deq ++ [item.url]) enq := by
  rw [crawlLoop, dif_pos h, if_neg hv, if_neg hd, if_neg hp]
  rw [hw]
  simp only [if_pos hc, if_neg hdep]

theorem crawlLoop_page_exp (web : Web) (bd : String) (pfx : Option String)
    (mp : Nat) (md : Option Nat) (item : QItem) (rest : List QItem)
    (procd : List (String × Nat)) (pages : List PageR) (al : List LinkR)
    (deq enq : List String) (h : pages.length < mp)
    (hv : item.url ∉ procd.map Prod.fst)
    (hd : ¬ (urlparse item.url).netloc ≠ bd)
    (hp : ¬ pfxBlocks pfx (urlparse item.url).path = true)
    (title content : String) (links : List LinkR)
    (hw : web item.url = some (title, content, links))
    (hc : pyStrip content ≠ "") (hdep : depthOk md item.depth = true) :
    crawlLoop web bd pfx mp md (item :: rest) procd pages al deq enq =
      crawlLoop web bd pfx mp md
        (enqueueLinks (procd.map Prod.fst ++ [item.url]) item.depth item.url
          links rest al enq).1
        (procd ++ [(item.url, item.depth)])
        (pages ++ [⟨item.url, title, content⟩])
        (enqueueLinks (procd.map Prod.fst ++ [item.url]) item.depth item.url
          links rest al enq).2.1
        (deq ++ [item.url])
        (enqueueLinks (procd.map Prod.fst ++ [item.url]) item.depth item.url
          links rest al enq).2.2 := by
  rw [crawlLoop, dif_pos h, if_neg hv, if_neg hd, if_neg hp]
  rw [hw]
  simp only [if_pos hc, if_pos hdep]

/-! ### Budget invariant (C1, first half) -/

theorem crawlLoop_pages_le (web : Web) (bd : String) (pfx : Option String)
    (mp : Nat) (md : Option Nat) :
    ∀ (q : List QItem) (procd : List (String × Nat)) (pages : List PageR)
      (al : List LinkR) (deq enq : List String), pages.length ≤ mp →
      (crawlLoop web bd pfx mp md q procd pages al deq enq).pages.length ≤ mp := by
  intro q procd pages al deq enq
  induction q, procd, pages, al, deq, enq using crawlLoop.induct web bd pfx mp md with
  | case1 procd pages al deq enq =>
    intro h
    rw [crawlLoop_nil]
    exact h
  | case2 item rest procd pages al deq enq h hv ih =>
    intro h0
    rw [crawlLoop_visited web bd pfx mp md item rest procd pages al deq enq h hv]
    exact ih h0
  | case3 item rest procd pages al deq enq h hv hd ih =>
    intro h0
    rw [crawlLoop_domain web bd pfx mp md item rest procd pages al deq enq h hv hd]
    exact ih h0
  | case4 item rest procd pages al deq enq h hv hd hp ih =>
    intro h0
    rw [crawlLoop_pfx web bd pfx mp md item rest procd pages al deq enq h hv hd hp]
    exact ih h0
  | case5 item rest procd pages al deq enq h hv hd hp title content links hw hc hdep e ih =>
    intro h0
    rw [crawlLoop_page_exp web bd pfx mp md item rest procd pages al deq enq
      h hv hd hp title content links hw hc hdep]
    exact ih (by simpa using h)
  | case6 item rest procd pages al deq enq h hv hd hp title content links hw hc hdep ih =>
    intro h0
    rw [crawlLoop_page_noexp web bd pfx mp md item rest procd pages al deq enq
      h hv hd hp title content links hw hc hdep]
    exact ih (by simpa using h)
  | case7 item rest procd pages al deq enq h hv hd hp title content links hw hc ih =>
    intro h0
    rw [crawlLoop_empty web bd pfx mp md item rest procd pages al deq enq
      h hv hd hp title content links hw hc]
    exact ih h0
  | case8 item rest procd pages al deq enq h hv hd hp hw ih =>
    intro h0
    rw [crawlLoop_fail web bd pfx mp md item rest procd pages al deq enq
      h hv hd hp hw]
    exact ih h0
  | case9 item rest procd pages al deq enq h =>
    intro h0
    rw [crawlLoop_budget web bd pfx mp md item rest procd pages al deq enq h]
    exact h0

/-! ### Link recording is paired with frontier creation (C3) -/

theorem enqueueLinks_pairing (visited : List String) (depth : Nat)
    (cur : String) :
    ∀ (links : List LinkR) (q : List QItem) (al : List LinkR)
      (enq : List String),
      ∃ D, (enqueueLinks visited depth cur links q al enq).2.1 = al ++ D ∧
        (enqueueLinks visited depth cur links q al enq).2.2 =
          enq ++ D.map (fun l => normalize_url l.url) := by
  intro links
  induction links with
  | nil =>
    intro q al enq
    exact ⟨[], by simp [enqueueLinks], by simp [enqueueLinks]⟩
  | cons lk restLinks ih =>
    intro q al enq
    by_cases hcond : normalize_url lk.url ∉ visited ∧
        normalize_url lk.url ∉ q.map QItem.url
    · simp only [enqueueLinks, if_pos hcond]
      obtain ⟨D, h1, h2⟩ := ih (q ++ [⟨normalize_url lk.url, depth + 1, some cur⟩])
        (al ++ [lk]) (enq ++ [normalize_url lk.url])
      refine ⟨lk :: D, ?_, ?_⟩
      · rw [h1]
        simp
      · rw [h2]
        simp
    · simp only [enqueueLinks, if_neg hcond]
      exact ih q al enq

theorem enqueueLinks_queue_mem (visited : List String) (depth : Nat)
    (cur : String) :
    ∀ (links : List LinkR) (q : List QItem) (al : List LinkR)
      (enq : List String) (it : QItem),
      it ∈ (enqueueLinks visited depth cur links q al enq).1 →
      it ∈ q ∨ (it.depth = depth + 1 ∧
        it.url ∈ links.map (fun l => normalize_url l.url)) := by
  intro links
  induction links with
  | nil =>
    intro q al enq it hit
    simp only [enqueueLinks] at hit
    exact Or.inl hit
  | cons lk restLinks ih =>
    intro q al enq it hit
    by_cases hcond : normalize_url lk.url ∉ visited ∧
        normalize_url lk.url ∉ q.map QItem.url
    · simp only [enqueueLinks, if_pos hcond] at hit
      rcases ih _ _ _ it hit with hin | ⟨hd, hu⟩
      · rcases List.mem_append.mp hin with h1 | h2
        · exact Or.inl h1
        · simp only [List.mem_singleton] at h2
          subst h2
          exact Or.inr ⟨rfl, by simp⟩
      · exact Or.inr ⟨hd, by simp [hu]⟩
    · simp only [enqueueLinks, if_neg hcond] at hit
      rcases ih _ _ _ it hit with hin | ⟨hd, hu⟩
      · exact Or.inl hin
      · exact Or.inr ⟨hd, by simp [hu]⟩

theorem crawlLoop_enq_pairing (web : Web) (bd : String) (pfx : Option String)
    (mp : Nat) (md : Option Nat) :
    ∀ (q : List QItem) (procd : List (String × Nat)) (pages : List PageR)
      (al : List LinkR) (deq enq : List String),
      ∃ D, (crawlLoop web bd pfx mp md q procd pages al deq enq).allLinks =
          al ++ D ∧
        (crawlLoop web bd pfx mp md q procd pages al deq enq).enq =
          enq ++ D.map (fun l => normalize_url l.url) := by
  intro q procd pages al deq enq
  induction q, procd, pages, al, deq, enq using crawlLoop.induct web bd pfx mp md with
  | case1 procd pages al deq enq =>
    rw [crawlLoop_nil]
    exact ⟨[], by simp, by simp⟩
  | case2 item rest procd pages al deq enq h hv ih =>
    rw [crawlLoop_visited web bd pfx mp md item rest procd pages al deq enq h hv]
    exact ih
  | case3 item rest procd pages al deq enq h hv hd ih =>
    rw [crawlLoop_domain web bd pfx mp md item rest procd pages al deq enq h hv hd]
    exact ih
  | case4 item rest procd pages al deq enq h hv hd hp ih =>
    rw [crawlLoop_pfx web bd pfx mp md item rest procd pages al deq enq h hv hd hp]
    exact ih
  | case5 item rest procd pages al deq enq h hv hd hp title content links hw hc hdep e ih =>
    rw [crawlLoop_page_exp web bd pfx mp md item rest procd pages al deq enq
      h hv hd hp title content links hw hc hdep]
    obtain ⟨D1, hq1, hq2⟩ := enqueueLinks_pairing
      (procd.map Prod.fst ++ [item.url]) item.depth item.url links rest al enq
    obtain ⟨D2, h1, h2⟩ := ih
    refine ⟨D1 ++ D2, ?_, ?_⟩
    · rw [h1, hq1]
      simp
    · rw [h2, hq2]
      simp
  | case6 item rest procd pages al deq enq h hv hd hp title content links hw hc hdep ih =>
    rw [crawlLoop_page_noexp web bd pfx mp md item rest procd pages al deq enq
      h hv hd hp title content links hw hc hdep]
    exact ih
  | case7 item rest procd pages al deq enq h hv hd hp title content links hw hc ih =>
    rw [crawlLoop_empty web bd pfx mp md item rest procd pages al deq enq
      h hv hd hp title content links hw hc]
    exact ih
  | case8 item rest procd pages al deq enq h hv hd hp hw ih =>
    rw [crawlLoop_fail web bd pfx mp md item rest procd pages al deq enq
      h hv hd hp hw]
    exact ih
  | case9 item rest procd pages al deq enq h =>
    rw [crawlLoop_budget web bd pfx mp md item rest procd pages al deq enq h]
    exact ⟨[], by simp, by simp⟩

/-! ### No URL is visited twice (C2, amended) -/

theorem crawlLoop_procd_nodup (web : Web) (bd : String) (pfx : Option String)
    (mp : Nat) (md : Option Nat) :
    ∀ (q : List QItem) (procd : List (String × Nat)) (pages : List PageR)
      (al : List LinkR) (deq enq : List String),
      (procd.map Prod.fst).Nodup →
      ((crawlLoop web bd pfx mp md q procd pages al deq enq).procd.map
        Prod.fst).Nodup := by
  intro q procd pages al deq enq
  induction q, procd, pages, al, deq, enq using crawlLoop.induct web bd pfx mp md with
  | case1 procd pages al deq enq =>
    intro h0
    rw [crawlLoop_nil]
    exact h0
  | case2 item rest procd pages al deq enq h hv ih =>
    intro h0
    rw [crawlLoop_visited web bd pfx mp md item rest procd pages al deq enq h hv]
    exact ih h0
  | case3 item rest procd pages al deq enq h hv hd ih =>
    intro h0
    rw [crawlLoop_domain web bd pfx mp md item rest procd pages al deq enq h hv hd]
    exact ih h0
  | case4 item rest procd pages al deq enq h hv hd hp ih =>
    intro h0
    rw [crawlLoop_pfx web bd pfx mp md item rest procd pages al deq enq h hv hd hp]
    exact ih h0
  | case5 item rest procd pages al deq enq h hv hd hp title content links hw hc hdep e ih =>
    intro h0
    rw [crawlLoop_page_exp web bd pfx mp md item rest procd pages al deq enq
      h hv hd hp title content links hw hc hdep]
    exact ih (by simp [List.nodup_append, h0, hv])
  | case6 item rest procd pages al deq enq h hv hd hp title content links hw hc hdep ih =>
    intro h0
    rw [crawlLoop_page_noexp web bd pfx mp md item rest procd pages al deq enq
      h hv hd hp title content links hw hc hdep]
    exact ih (by simp [List.nodup_append, h0, hv])
  | case7 item rest procd pages al deq enq h hv hd hp title content links hw hc ih =>
    intro h0
    rw [crawlLoop_empty web bd pfx mp md item rest procd pages al deq enq
      h hv hd hp title content links hw hc]
    exact ih (by simp [List.nodup_append, h0, hv])
  | case8 item rest procd pages al deq enq h hv hd hp hw ih =>
    intro h0
    rw [crawlLoop_fail web bd pfx mp md item rest procd pages al deq enq
      h hv hd hp hw]
    exact ih (by simp [List.nodup_append, h0, hv])
  | case9 item rest procd pages al deq enq h =>
    intro h0
    rw [crawlLoop_budget web bd pfx mp md item rest procd pages al deq enq h]
    exact h0

/-! ### Depth-1 crawls only reach the seed and its direct links (C5) -/

theorem crawlLoop_depth_one (web : Web) (bd : String) (pfx : Option String)
    (mp : Nat) (seedc : String) :
    ∀ (q : List QItem) (procd : List (String × Nat)) (pages : List PageR)
      (al : List LinkR) (deq enq : List String),
      (∀ it ∈ q, (it.depth = 0 ∧ it.url = seedc) ∨
        (1 ≤ it.depth ∧ it.url ∈ canonLinks web seedc)) →
      (∀ p ∈ pages, p.url = seedc ∨ p.url ∈ canonLinks web seedc) →
      ∀ p ∈ (crawlLoop web bd pfx mp (some 1) q procd pages al deq enq).pages,
        p.url = seedc ∨ p.url ∈ canonLinks web seedc := by
  intro q procd pages al deq enq
  induction q, procd, pages, al, deq, enq using
      crawlLoop.induct web bd pfx mp (some 1) with
  | case1 procd pages al deq enq =>
    intro _ h0
    rw [crawlLoop_nil]
    exact h0
  | case2 item rest procd pages al deq enq h hv ih =>
    intro hq h0
    rw [crawlLoop_visited web bd pfx mp (some 1) item rest procd pages al deq enq h hv]
    exact ih (fun it hit => hq it (List.mem_cons_of_mem item hit)) h0
  | case3 item rest procd pages al deq enq h hv hd ih =>
    intro hq h0
    rw [crawlLoop_domain web bd pfx mp (some 1) item rest procd pages al deq enq h hv hd]
    exact ih (fun it hit => hq it (List.mem_cons_of_mem item hit)) h0
  | case4 item rest procd pages al deq enq h hv hd hp ih =>
    intro hq h0
    rw [crawlLoop_pfx web bd pfx mp (some 1) item rest procd pages al deq enq h hv hd hp]
    exact ih (fun it hit => hq it (List.mem_cons_of_mem item hit)) h0
  | case5 item rest procd pages al deq enq h hv hd hp title content links hw hc hdep e ih =>
    intro hq h0
    rw [crawlLoop_page_exp web bd pfx mp (some 1) item rest procd pages al deq enq
      h hv hd hp title content links hw hc hdep]
    have hdz : item.depth = 0 := by
      simp only [depthOk, decide_eq_true_eq] at hdep
      omega
    have hurl : item.url = seedc := by
      rcases hq item (by simp) with ⟨_, hu⟩ | ⟨hge, _⟩
      · exact hu
      · omega
    have hcl : canonLinks web seedc =
        links.map (fun l => normalize_url l.url) := by
      rw [← hurl]
      simp [canonLinks, hw]
    refine ih ?_ ?_
    · intro it hit
      rcases enqueueLinks_queue_mem (procd.map Prod.fst ++ [item.url])
        item.depth item.url links rest al enq it hit with hin | ⟨hdp, hu⟩
      · exact hq it (List.mem_cons_of_mem item hin)
      · right
        refine ⟨by omega, ?_⟩
        rw [hcl]
        exact hu
    · intro p hp2
      rcases List.mem_append.mp hp2 with h1 | h2
      · exact h0 p h1
      · simp only [List.mem_singleton] at h2
        subst h2
        exact Or.inl hurl
  | case6 item rest procd pages al deq enq h hv hd hp title content links hw hc hdep ih =>
    intro hq h0
    rw [crawlLoop_page_noexp web bd pfx mp (some 1) item rest procd pages al deq enq
      h hv hd hp title content links hw hc hdep]
    refine ih (fun it hit => hq it (List.mem_cons_of_mem item hit)) ?_
    intro p hp2
    rcases List.mem_append.mp hp2 with h1 | h2
    · exact h0 p h1
    · simp only [List.mem_singleton] at h2
      subst h2
      rcases hq item (by simp) with ⟨_, hu⟩ | ⟨_, hu⟩
      · exact Or.inl hu
      · exact Or.inr hu
  | case7 item rest procd pages al deq enq h hv hd hp title content links hw hc ih =>
    intro hq h0
    rw [crawlLoop_empty web bd pfx mp (some 1) item rest procd pages al deq enq
      h hv hd hp title content links hw hc]
    exact ih (fun it hit => hq it (List.mem_cons_of_mem item hit)) h0
  | case8 item rest procd pages al deq enq h hv hd hp hw ih =>
    intro hq h0
    rw [crawlLoop_fail web bd pfx mp (some 1) item rest procd pages al deq enq
      h hv hd hp hw]
    exact ih (fun it hit => hq it (List.mem_cons_of_mem item hit)) h0
  | case9 item rest procd pages al deq enq h =>
    intro _ h0
    rw [crawlLoop_budget web bd pfx mp (some 1) item rest procd pages al deq enq h]
    exact h0

/-! ### Every stored page has nonempty stripped content (C6) -/

theorem crawlLoop_content_nonempty (web : Web) (bd : String)
    (pfx : Option String) (mp : Nat) (md : Option Nat) :
    ∀ (q : List QItem) (procd : List (String × Nat)) (pages : List PageR)
      (al : List LinkR) (deq enq : List String),
      (∀ p ∈ pages, pyStrip p.content ≠ "") →
      ∀ p ∈ (crawlLoop web bd pfx mp md q procd pages al deq enq).pages,
        pyStrip p.content ≠ "" := by
  intro q procd pages al deq enq
  induction q, procd, pages, al, deq, enq using crawlLoop.induct web bd pfx mp md with
  | case1 procd pages al deq enq =>
    intro h0
    rw [crawlLoop_nil]
    exact h0
  | case2 item rest procd pages al deq enq h hv ih =>
    intro h0
    rw [crawlLoop_visited web bd pfx mp md item rest procd pages al deq enq h hv]
    exact ih h0
  | case3 item rest procd pages al deq enq h hv hd ih =>
    intro h0
    rw [crawlLoop_domain web bd pfx mp md item rest procd pages al deq enq h hv hd]
    exact ih h0
  | case4 item rest procd pages al deq enq h hv hd hp ih =>
    intro h0
    rw [crawlLoop_pfx web bd pfx mp md item rest procd pages al deq enq h hv hd hp]
    exact ih h0
  | case5 item rest procd pages al deq enq h hv hd hp title content links hw hc hdep e ih =>
    intro h0
    rw [crawlLoop_page_exp web bd pfx mp md item rest procd pages al deq enq
      h hv hd hp title content links hw hc hdep]
    refine ih ?_
    intro p hp2
    rcases List.mem_append.mp hp2 with h1 | h2
    · exact h0 p h1
    · simp only [List.mem_singleton] at h2
      subst h2
      exact hc
  | case6 item rest procd pages al deq enq h hv hd hp title content links hw hc hdep ih =>
    intro h0
    rw [crawlLoop_page_noexp web bd pfx mp md item rest procd pages al deq enq
      h hv hd hp title content links hw hc hdep]
    refine ih ?_
    intro p hp2
    rcases List.mem_append.mp hp2 with h1 | h2
    · exact h0 p h1
    · simp only [List.mem_singleton] at h2
      subst h2
      exact hc
  | case7 item rest procd pages al deq enq h hv hd hp title content links hw hc ih =>
    intro h0
    rw [crawlLoop_empty web bd pfx mp md item rest procd pages al deq enq
      h hv hd hp title content links hw hc]
    exact ih h0
  | case8 item rest procd pages al deq enq h hv hd hp hw ih =>
    intro h0
    rw [crawlLoop_fail web bd pfx mp md item rest procd pages al deq enq
      h hv hd hp hw]
    exact ih h0
  | case9 item rest procd pages al deq enq h =>
    intro h0
    rw [crawlLoop_budget web bd pfx mp md item rest procd pages al deq enq h]
    exact h0


/-! ### Concrete crawl evaluations (via the fueled evaluator) -/

theorem crawl_webC2_eval :
    crawl webC2 "https://a.com/docs/start" 10 none (some "/docs/") =
      ⟨[⟨"https://a.com/docs/start", "S", "start body"⟩,
        ⟨"https://a.com/docs/b", "B", "b body"⟩],
       [⟨"https://a.com/docs/", "root"⟩, ⟨"https://a.com/docs/b", "b"⟩,
        ⟨"https://a.com/docs/", "root"⟩],
       ["https://a.com/docs/start", "https://a.com/docs",
        "https://a.com/docs/b", "https://a.com/docs"],
       [("https://a.com/docs/start", 0), ("https://a.com/docs/b", 1)],
       ["https://a.com/docs/start", "https://a.com/docs",
        "https://a.com/docs/b", "https://a.com/docs"]⟩ := by
  have h1 : normalize_url "https://a.com/docs/start" =
      "https://a.com/docs/start" := by decide
  have h2 : (urlparse "https://a.com/docs/start").netloc = "a.com" := by decide
  simp only [crawl, h1, h2]
  exact crawlLoopF_eq webC2 "a.com" (some "/docs/") 10 none 20 _ _ _ _ _ _ _
    (by decide)

theorem crawl_webC3_eval :
    crawl webC3 "https://a.com/p" 10 none none =
      ⟨[⟨"https://a.com/p", "T", "p body"⟩], [], ["https://a.com/p"],
       [("https://a.com/p", 0)], ["https://a.com/p"]⟩ := by
  have h1 : normalize_url "https://a.com/p" = "https://a.com/p" := by decide
  have h2 : (urlparse "https://a.com/p").netloc = "a.com" := by decide
  simp only [crawl, h1, h2]
  exact crawlLoopF_eq webC3 "a.com" none 10 none 20 _ _ _ _ _ _ _ (by decide)

theorem crawl_webC1_eval :
    crawl webC1 "https://a.com" 2 none none =
      ⟨[⟨"https://a.com", "Home", "home body"⟩, ⟨"https://a.com/b", "B", "b body"⟩],
       [⟨"https://a.com/b", "b"⟩], ["https://a.com", "https://a.com/b"],
       [("https://a.com", 0), ("https://a.com/b", 1)],
       ["https://a.com", "https://a.com/b"]⟩ := by
  have h1 : normalize_url "https://a.com" = "https://a.com" := by decide
  have h2 : (urlparse "https://a.com").netloc = "a.com" := by decide
  simp only [crawl, h1, h2]
  exact crawlLoopF_eq webC1 "a.com" none 2 none 20 _ _ _ _ _ _ _ (by decide)

theorem crawl_webC1_depth_eval :
    crawl webC1 "https://a.com" 10 (some 1) none =
      ⟨[⟨"https://a.com", "Home", "home body"⟩, ⟨"https://a.com/b", "B", "b body"⟩],
       [⟨"https://a.com/b", "b"⟩], ["https://a.com", "https://a.com/b"],
       [("https://a.com", 0), ("https://a.com/b", 1)],
       ["https://a.com", "https://a.com/b"]⟩ := by
  have h1 : normalize_url "https://a.com" = "https://a.com" := by decide
  have h2 : (urlparse "https://a.com").netloc = "a.com" := by decide
  simp only [crawl, h1, h2]
  exact crawlLoopF_eq webC1 "a.com" none 10 (some 1) 20 _ _ _ _ _ _ _ (by decide)

theorem crawl_webC6_eval :
    crawl webC6 "https://a.com" 10 none none =
      ⟨[⟨"https://a.com", "Home", "home body"⟩, ⟨"https://a.com/b", "B", "b body"⟩],
       [⟨"https://a.com/empty", "e"⟩, ⟨"https://a.com/b", "b"⟩],
       ["https://a.com", "https://a.com/empty", "https://a.com/b"],
       [("https://a.com", 0), ("https://a.com/empty", 1), ("https://a.com/b", 1)],
       ["https://a.com", "https://a.com/empty", "https://a.com/b"]⟩ := by
  have h1 : normalize_url "https://a.com" = "https://a.com" := by decide
  have h2 : (urlparse "https://a.com").netloc = "a.com" := by decide
  simp only [crawl, h1, h2]
  exact crawlLoopF_eq webC6 "a.com" none 10 none 20 _ _ _ _ _ _ _ (by decide)

/-! ### Claim C2 -/

/-- C2 (counterexample): the frontier *can* dequeue the same canonical URL
twice.  With path filter `/docs/`, the canonical URL `https://a.com/docs`
is dequeued, discarded by the path filter without being marked visited,
re-enqueued by a later page, and dequeued again. -/
theorem c2_counterexample :
    ¬ (crawl webC2 "https://a.com/docs/start" 10 none
        (some "/docs/")).deq.Nodup := by
  rw [crawl_webC2_eval]
  decide

/-- C2 (amended): the same canonical URL is never *visited* (marked in the
visited set and scraped) twice; a canonical URL can only be dequeued more
than once when every earlier dequeue of it was silently discarded by the
domain or path-prefix filter, which leaves the crawl state unchanged. -/
theorem c2_no_revisit_amended (web : Web) (startUrl : String) (N : Nat)
    (md : Option Nat) (pfx : Option String) :
    ((crawl web startUrl N md pfx).procd.map Prod.fst).Nodup := by
  simp only [crawl]
  exact crawlLoop_procd_nodup web (urlparse startUrl).netloc pfx N md
    _ _ _ _ _ _ (by simp)

/-! ### Claim C3 -/

/-- C3 (counterexample): a link whose canonical URL is already visited is
*not* appended to `all_links`.  The sole page links back to itself: the
link is discovered on a successfully scraped page whose depth permits
enqueueing, yet `all_links` stays empty. -/
theorem c3_counterexample :
    webC3 "https://a.com/p" =
      some ("T", "p body", [⟨"https://a.com/p", "self"⟩]) ∧
    (crawl webC3 "https://a.com/p" 10 none none).pages =
      [⟨"https://a.com/p", "T", "p body"⟩] ∧
    (crawl webC3 "https://a.com/p" 10 none none).allLinks = [] := by
  refine ⟨by decide, ?_, ?_⟩
  · rw [crawl_webC3_eval]
  · rw [crawl_webC3_eval]

/-- C3 (amended): a discovered link is appended to `all_links` exactly when
a new frontier entry is created for it; consequently the sequence of URLs
ever enqueued is the canonical seed followed by the canonical URLs of
`all_links`, in order. -/
theorem c3_links_amended (web : Web) (startUrl : String) (N : Nat)
    (md : Option Nat) (pfx : Option String) :
    (crawl web startUrl N md pfx).enq =
      normalize_url startUrl ::
        (crawl web startUrl N md pfx).allLinks.map
          (fun l => normalize_url l.url) := by
  simp only [crawl]
  obtain ⟨D, h1, h2⟩ := crawlLoop_enq_pairing web (urlparse startUrl).netloc
    pfx N md [⟨normalize_url startUrl, 0, none⟩] [] [] [] []
    [normalize_url startUrl]
  rw [h1, h2]
  simp

/-! ### Claim C5 -/

/-- C5: with `max_depth = 1` every stored page is the canonical seed or a
canonical link discovered on the seed page; a page two or more hops away
never appears. -/
theorem c5_depth_limit (web : Web) (startUrl : String) (N : Nat)
    (pfx : Option String) :
    ∀ p ∈ (crawl web startUrl N (some 1) pfx).pages,
      p.url = normalize_url startUrl ∨
        p.url ∈ canonLinks web (normalize_url startUrl) := by
  intro p hp
  simp only [crawl] at hp
  refine crawlLoop_depth_one web (urlparse startUrl).netloc pfx N
    (normalize_url startUrl) _ _ _ _ _ _ ?_ (by simp) p hp
  intro it hit
  simp only [List.mem_singleton] at hit
  subst hit
  exact Or.inl ⟨rfl, rfl⟩

/-- C5 witness: the depth-1 theorem applied to the page `/b` of a concrete
two-page site. -/
theorem c5_witness :
    (⟨"https://a.com/b", "B", "b body"⟩ : PageR).url =
      normalize_url "https://a.com" ∨
    (⟨"https://a.com/b", "B", "b body"⟩ : PageR).url ∈
      canonLinks webC1 (normalize_url "https://a.com") :=
  c5_depth_limit webC1 "https://a.com" 10 none
    ⟨"https://a.com/b", "B", "b body"⟩
    (by rw [crawl_webC1_depth_eval]; decide)

/-! ### Claim C6 -/

/-- C6: every stored page has content that is nonempty after stripping, and
an entry whose scrape succeeds with empty (whitespace-only) content is
skipped without a page while the loop continues on the remaining frontier
with only the visited set extended. -/
theorem c6_empty_content :
    (∀ (web : Web) (startUrl : String) (N : Nat) (md : Option Nat)
      (pfx : Option String) (p : PageR),
      p ∈ (crawl web startUrl N md pfx).pages → pyStrip p.content ≠ "") ∧
    (∀ (web : Web) (bd : String) (pfx : Option String) (mp : Nat)
      (md : Option Nat) (item : QItem) (rest : List QItem)
      (procd : List (String × Nat)) (pages : List PageR) (al : List LinkR)
      (deq enq : List String) (title content : String) (links : List LinkR),
      pages.length < mp → item.url ∉ procd.map Prod.fst →
      (urlparse item.url).netloc = bd →
      pfxBlocks pfx (urlparse item.url).path = false →
      web item.url = some (title, content, links) → pyStrip content = "" →
      crawlLoop web bd pfx mp md (item :: rest) procd pages al deq enq =
        crawlLoop web bd pfx mp md rest (procd ++ [(item.url, item.depth)])
          pages al (deq ++ [item.url]) enq) := by
  constructor
  · intro web startUrl N md pfx p hp
    simp only [crawl] at hp
    exact crawlLoop_content_nonempty web (urlparse startUrl).netloc pfx N md
      _ _ _ _ _ _ (by simp) p hp
  · intro web bd pfx mp md item rest procd pages al deq enq title content
      links h hv hd hp hw hc
    exact crawlLoop_empty web bd pfx mp md item rest procd pages al deq enq
      h hv (fun hne => hne hd) (by rw [hp]; simp) title content links hw
      (by simp [hc])

/-- C6 witness: both halves at a concrete site with a whitespace-only page. -/
theorem c6_witness :
    pyStrip (⟨"https://a.com", "Home", "home body"⟩ : PageR).content ≠ "" ∧
    crawlLoop webC6 "a.com" none 10 none
        [⟨"https://a.com/empty", 1, some "https://a.com"⟩]
        [("https://a.com", 0)] [⟨"https://a.com", "Home", "home body"⟩] []
        ["https://a.com"] ["https://a.com"] =
      crawlLoop webC6 "a.com" none 10 none []
        [("https://a.com", 0), ("https://a.com/empty", 1)]
        [⟨"https://a.com", "Home", "home body"⟩] []
        ["https://a.com", "https://a.com/empty"] ["https://a.com"] := by
  constructor
  · apply c6_empty_content.1 webC6 "https://a.com" 10 none none
    rw [crawl_webC6_eval]
    decide
  · exact c6_empty_content.2 webC6 "a.com" none 10 none
      ⟨"https://a.com/empty", 1, some "https://a.com"⟩ []
      [("https://a.com", 0)] [⟨"https://a.com", "Home", "home body"⟩] []
      ["https://a.com"] ["https://a.com"] "E" "  " []
      (by decide) (by decide) (by decide) (by decide) (by decide) (by decide)

/-! ### Structure of good paths (towards C1 completeness) -/

theorem depthOk_mono {md : Option Nat} {d d' : Nat} (hdd : d ≤ d')
    (h : depthOk md d' = true) : depthOk md d = true := by
  cases md with
  | none => simp [depthOk]
  | some m =>
    simp only [depthOk, decide_eq_true_eq] at h ⊢
    omega

theorem goodChain_prefix (web : Web) (bd : String) (pfx : Option String)
    (md : Option Nat) :
    ∀ (xs ys : List String) (i : Nat) (u : String),
      goodChain web bd pfx md i u (xs ++ ys) = true →
      goodChain web bd pfx md i u xs = true := by
  intro xs
  induction xs with
  | nil =>
    intro ys i u _
    simp [goodChain]
  | cons v t ih =>
    intro ys i u h
    simp only [List.cons_append, goodChain, Bool.and_eq_true] at h ⊢
    exact ⟨h.1, ih ys (i + 1) v h.2⟩

theorem goodChain_mem (web : Web) (bd : String) (pfx : Option String)
    (md : Option Nat) :
    ∀ (xs : List String) (i : Nat) (u : String),
      goodChain web bd pfx md i u xs = true →
      ∀ v ∈ xs, passesFilters bd pfx v = true ∧ goodUrl web v = true := by
  intro xs
  induction xs with
  | nil =>
    intro i u _ v hv
    simp at hv
  | cons w t ih =>
    intro i u h v hv
    simp only [goodChain, Bool.and_eq_true] at h
    rcases List.mem_cons.mp hv with rfl | hvt
    · exact ⟨h.1.1.2, h.1.2⟩
    · exact ih (i + 1) w h.2 v hvt

theorem goodChain_step (web : Web) (bd : String) (pfx : Option String)
    (md : Option Nat) :
    ∀ (xs : List String) (i : Nat) (u p u2 : String) (B : List String),
      goodChain web bd pfx md i u (xs ++ p :: u2 :: B) = true →
      depthOk md (i + xs.length + 1) = true ∧ u2 ∈ canonLinks web p := by
  intro xs
  induction xs with
  | nil =>
    intro i u p u2 B h
    simp only [List.nil_append, goodChain, Bool.and_eq_true,
      decide_eq_true_eq] at h
    refine ⟨?_, h.2.1.1.1.2⟩
    simpa using h.2.1.1.1.1
  | cons x t ih =>
    intro i u p u2 B h
    simp only [List.cons_append, goodChain, Bool.and_eq_true] at h
    have hs := ih (i + 1) x p u2 B h.2
    refine ⟨?_, hs.2⟩
    have harith : i + (x :: t).length + 1 = i + 1 + t.length + 1 := by
      simp only [List.length_cons]
      omega
    rw [harith]
    exact hs.1

theorem goodPath_head (web : Web) (bd : String) (pfx : Option String)
    (md : Option Nat) (seed : String) {l : List String}
    (h : goodPath web bd pfx md seed l = true) :
    ∃ rest, l = seed :: rest ∧ passesFilters bd pfx seed = true ∧
      goodUrl web seed = true ∧ goodChain web bd pfx md 0 seed rest = true := by
  cases l with
  | nil => simp [goodPath] at h
  | cons a rest =>
    simp only [goodPath, Bool.and_eq_true, beq_iff_eq] at h
    obtain ⟨⟨⟨rfl, hf⟩, hg⟩, hc⟩ := h
    exact ⟨rest, rfl, hf, hg, hc⟩

theorem goodPath_mem (web : Web) (bd : String) (pfx : Option String)
    (md : Option Nat) (seed : String) {l : List String}
    (h : goodPath web bd pfx md seed l = true) :
    ∀ u ∈ l, passesFilters bd pfx u = true ∧ goodUrl web u = true := by
  obtain ⟨rest, rfl, hf, hg, hc⟩ := goodPath_head web bd pfx md seed h
  intro u hu
  rcases List.mem_cons.mp hu with rfl | hut
  · exact ⟨hf, hg⟩
  · exact goodChain_mem web bd pfx md rest 0 seed hc u hut

theorem goodPath_prefix (web : Web) (bd : String) (pfx : Option String)
    (md : Option Nat) (seed : String) :
    ∀ (A B : List String), goodPath web bd pfx md seed (A ++ B) = true →
      A ≠ [] → goodPath web bd pfx md seed A = true := by
  intro A B h hne
  cases A with
  | nil => exact absurd rfl hne
  | cons a t =>
    simp only [List.cons_append, goodPath, Bool.and_eq_true] at h ⊢
    exact ⟨h.1, goodChain_prefix web bd pfx md t B 0 a h.2⟩

theorem goodPath_step (web : Web) (bd : String) (pfx : Option String)
    (md : Option Nat) (seed : String) :
    ∀ (A : List String) (p u2 : String) (B : List String),
      goodPath web bd pfx md seed (A ++ p :: u2 :: B) = true →
      depthOk md A.length = true ∧ u2 ∈ canonLinks web p := by
  intro A p u2 B h
  cases A with
  | nil =>
    obtain ⟨rest, heq, hf, hg, hc⟩ := goodPath_head web bd pfx md seed h
    simp only [List.nil_append] at heq
    injection heq with h1 h2
    subst h1
    subst h2
    simp only [goodChain, Bool.and_eq_true, decide_eq_true_eq] at hc
    refine ⟨by simpa using hc.1.1.1.1, hc.1.1.1.2⟩
  | cons a t =>
    obtain ⟨rest, heq, hf, hg, hc⟩ := goodPath_head web bd pfx md seed h
    simp only [List.cons_append] at heq
    injection heq with h1 h2
    subst h1
    subst h2
    have hs := goodChain_step web bd pfx md t 0 a p u2 B hc
    refine ⟨?_, hs.2⟩
    have harith : (a :: t).length = 0 + t.length + 1 := by
      simp only [List.length_cons]
      omega
    rw [harith]
    exact hs.1

theorem list_first_not_mem (V : List String) :
    ∀ (post : List String), (∀ v ∈ post, v ∈ V) ∨
      ∃ pre2 u2 post2, post = pre2 ++ u2 :: post2 ∧
        (∀ v ∈ pre2, v ∈ V) ∧ u2 ∉ V := by
  intro post
  induction post with
  | nil => exact Or.inl (by simp)
  | cons a t ih =>
    by_cases ha : a ∈ V
    · rcases ih with hall | ⟨p2, u2, q2, heq, hpre, hu⟩
      · refine Or.inl ?_
        intro v hv
        rcases List.mem_cons.mp hv with rfl | h
        exacts [ha, hall v h]
      · refine Or.inr ⟨a :: p2, u2, q2, by rw [heq]; simp, ?_, hu⟩
        intro v hv
        rcases List.mem_cons.mp hv with rfl | h
        exacts [ha, hpre v h]
    · exact Or.inr ⟨[], a, t, rfl, by simp, ha⟩

/-! ### Structure of the frontier after enqueueing (towards C1) -/

theorem enqueueLinks_sub (visited : List String) (depth : Nat) (cur : String) :
    ∀ (links : List LinkR) (q : List QItem) (al : List LinkR)
      (enq : List String) (it : QItem), it ∈ q →
      it ∈ (enqueueLinks visited depth cur links q al enq).1 := by
  intro links
  induction links with
  | nil =>
    intro q al enq it hit
    simpa [enqueueLinks] using hit
  | cons lk t ih =>
    intro q al enq it hit
    by_cases hcond : normalize_url lk.url ∉ visited ∧
        normalize_url lk.url ∉ q.map QItem.url
    · simp only [enqueueLinks, if_pos hcond]
      exact ih _ _ _ it (List.mem_append_left _ hit)
    · simp only [enqueueLinks, if_neg hcond]
      exact ih _ _ _ it hit

theorem enqueueLinks_sub_url (visited : List String) (depth : Nat)
    (cur : String) (links : List LinkR) (q : List QItem) (al : List LinkR)
    (enq : List String) (u : String) (hu : u ∈ q.map QItem.url) :
    u ∈ (enqueueLinks visited depth cur links q al enq).1.map QItem.url := by
  obtain ⟨it, hit, rfl⟩ := List.mem_map.mp hu
  exact List.mem_map.mpr
    ⟨it, enqueueLinks_sub visited depth cur links q al enq it hit, rfl⟩

theorem enqueueLinks_split (visited : List String) (depth : Nat)
    (cur : String) :
    ∀ (links : List LinkR) (q : List QItem) (al : List LinkR)
      (enq : List String),
      ∃ A, (enqueueLinks visited depth cur links q al enq).1 = q ++ A ∧
        ∀ it ∈ A, it.depth = depth + 1 := by
  intro links
  induction links with
  | nil =>
    intro q al enq
    exact ⟨[], by simp [enqueueLinks], by simp⟩
  | cons lk t ih =>
    intro q al enq
    by_cases hcond : normalize_url lk.url ∉ visited ∧
        normalize_url lk.url ∉ q.map QItem.url
    · simp only [enqueueLinks, if_pos hcond]
      obtain ⟨A, h1, h2⟩ := ih
        (q ++ [⟨normalize_url lk.url, depth + 1, some cur⟩]) (al ++ [lk])
        (enq ++ [normalize_url lk.url])
      refine ⟨⟨normalize_url lk.url, depth + 1, some cur⟩ :: A, ?_, ?_⟩
      · rw [h1]
        simp
      · intro it hit
        rcases List.mem_cons.mp hit with rfl | h
        exacts [rfl, h2 it h]
    · simp only [enqueueLinks, if_neg hcond]
      exact ih q al enq

theorem enqueueLinks_nodup (visited : List String) (depth : Nat)
    (cur : String) :
    ∀ (links : List LinkR) (q : List QItem) (al : List LinkR)
      (enq : List String), (q.map QItem.url).Nodup →
      ((enqueueLinks visited depth cur links q al enq).1.map QItem.url).Nodup := by
  intro links
  induction links with
  | nil =>
    intro q al enq h
    simpa [enqueueLinks] using h
  | cons lk t ih =>
    intro q al enq h
    by_cases hcond : normalize_url lk.url ∉ visited ∧
        normalize_url lk.url ∉ q.map QItem.url
    · simp only [enqueueLinks, if_pos hcond]
      apply ih
      rw [List.map_append]
      refine List.nodup_append.mpr ⟨h, List.nodup_singleton _, ?_⟩
      intro x hx hx2
      simp only [List.map_cons, List.map_nil, List.mem_singleton] at hx2
      subst hx2
      exact hcond.2 hx
    · simp only [enqueueLinks, if_neg hcond]
      exact ih q al enq h

theorem enqueueLinks_pairwise (visited : List String) (depth : Nat)
    (cur : String) :
    ∀ (links : List LinkR) (q : List QItem) (al : List LinkR)
      (enq : List String),
      (∀ it ∈ q, depth ≤ it.depth ∧ it.depth ≤ depth + 1) →
      List.Pairwise qRel q →
      (∀ it ∈ (enqueueLinks visited depth cur links q al enq).1,
        depth ≤ it.depth ∧ it.depth ≤ depth + 1) ∧
      List.Pairwise qRel (enqueueLinks visited depth cur links q al enq).1 := by
  intro links
  induction links with
  | nil =>
    intro q al enq hb hp
    simp only [enqueueLinks]
    exact ⟨hb, hp⟩
  | cons lk t ih =>
    intro q al enq hb hp
    by_cases hcond : normalize_url lk.url ∉ visited ∧
        normalize_url lk.url ∉ q.map QItem.url
    · simp only [enqueueLinks, if_pos hcond]
      apply ih
      · intro it hit
        rcases List.mem_append.mp hit with h1 | h2
        · exact hb it h1
        · simp only [List.mem_singleton] at h2
          subst h2
          exact ⟨Nat.le_succ depth, Nat.le_refl (depth + 1)⟩
      · rw [List.pairwise_append]
        refine ⟨hp, List.pairwise_singleton _ _, ?_⟩
        intro a ha b hbm
        simp only [List.mem_singleton] at hbm
        subst hbm
        exact ⟨(hb a ha).2, Nat.succ_le_succ (hb a ha).1⟩
    · simp only [enqueueLinks, if_neg hcond]
      exact ih q al enq hb hp

theorem enqueueLinks_covers (visited : List String) (depth : Nat)
    (cur : String) :
    ∀ (links : List LinkR) (q : List QItem) (al : List LinkR)
      (enq : List String) (lk : LinkR), lk ∈ links →
      normalize_url lk.url ∈ visited ∨
        normalize_url lk.url ∈
          (enqueueLinks visited depth cur links q al enq).1.map QItem.url := by
  intro links
  induction links with
  | nil =>
    intro q al enq lk hlk
    simp at hlk
  | cons lk0 t ih =>
    intro q al enq lk hlk
    by_cases hcond : normalize_url lk0.url ∉ visited ∧
        normalize_url lk0.url ∉ q.map QItem.url
    · simp only [enqueueLinks, if_pos hcond]
      rcases List.mem_cons.mp hlk with rfl | hlkt
      · refine Or.inr (enqueueLinks_sub_url _ _ _ _ _ _ _ _ ?_)
        simp
      · exact ih _ _ _ lk hlkt
    · simp only [enqueueLinks, if_neg hcond]
      rcases List.mem_cons.mp hlk with rfl | hlkt
      · by_cases hvq : normalize_url lk.url ∈ visited
        · exact Or.inl hvq
        · have hq : normalize_url lk.url ∈ q.map QItem.url := by
            by_contra hq
            exact hcond ⟨hvq, hq⟩
          exact Or.inr (enqueueLinks_sub_url _ _ _ _ _ _ _ _ hq)
      · exact ih q al enq lk hlkt

/-- Core step of the completeness invariant: on a good path, the first node
`u2` not yet in the *extended* visited set (old visited plus the URL just
dequeued) sits right behind a processed node, so it is either a canonical
link of the dequeued page (to be enqueued now) or already waiting in the
remaining frontier. -/
theorem chain_extend (web : Web) (bd : String) (pfx : Option String)
    (md : Option Nat) (seedc : String) (procd : List (String × Nat))
    (item : QItem) (rest : List QItem)
    (hQI : List.Pairwise qRel (item :: rest))
    (hCLOS : ∀ pd ∈ procd, goodUrl web pd.1 = true → depthOk md pd.2 = true →
      ∀ v ∈ canonLinks web pd.1, passesFilters bd pfx v = true →
        v ∈ procd.map Prod.fst ∨ v ∈ (item :: rest).map QItem.url)
    (hPROCD : ∀ (A : List String) (u : String),
      goodPath web bd pfx md seedc (A ++ [u]) = true →
      ∀ d, (u, d) ∈ procd → d ≤ A.length)
    (pre pre2 post2 : List String) (u2 : String) (l : List String)
    (hl : goodPath web bd pfx md seedc l = true)
    (hldec : l = pre ++ item.url :: (pre2 ++ u2 :: post2))
    (hpre2v : ∀ v ∈ pre2, v ∈ procd.map Prod.fst ++ [item.url])
    (hu2 : u2 ∉ procd.map Prod.fst ++ [item.url])
    (hitd : item.depth ≤ pre.length) :
    (depthOk md item.depth = true ∧ u2 ∈ canonLinks web item.url) ∨
      (∃ it2 ∈ rest, it2.url = u2) := by
  rcases pre2.eq_nil_or_concat with rfl | ⟨p2, p, rfl⟩
  · -- `u2` directly follows the dequeued URL
    rw [List.nil_append] at hldec
    have hs := goodPath_step web bd pfx md seedc pre item.url u2 post2
      (hldec ▸ hl)
    exact Or.inl ⟨depthOk_mono hitd hs.1, hs.2⟩
  · -- `u2` follows the already-visited predecessor `p`
    have hl2 : l = (pre ++ item.url :: p2) ++ p :: u2 :: post2 := by
      rw [hldec]
      simp
    have hs := goodPath_step web bd pfx md seedc (pre ++ item.url :: p2) p u2
      post2 (hl2 ▸ hl)
    have hlen : (pre ++ item.url :: p2).length = pre.length + 1 + p2.length := by
      simp only [List.length_append, List.length_cons]
      omega
    have hpmem : p ∈ procd.map Prod.fst ++ [item.url] := hpre2v p (by simp)
    rcases List.mem_append.mp hpmem with hpv | hpitem
    · -- `p` is an old visited URL: use loop-closure of its processing step
      obtain ⟨⟨p1, dp⟩, hpd0, hpd1⟩ := List.mem_map.mp hpv
      simp only at hpd1
      have hpd : (p, dp) ∈ procd := hpd1 ▸ hpd0
      have hl3 : l = ((pre ++ item.url :: p2) ++ [p]) ++ u2 :: post2 := by
        rw [hl2]
        simp
      have hgp : goodPath web bd pfx md seedc
          ((pre ++ item.url :: p2) ++ [p]) = true :=
        goodPath_prefix web bd pfx md seedc _ _ (hl3 ▸ hl) (by simp)
      have hdp : dp ≤ ((pre ++ item.url :: p2) : List String).length :=
        hPROCD _ p hgp dp hpd
      have hgoodp : goodUrl web p = true :=
        (goodPath_mem web bd pfx md seedc hl p (by rw [hl2]; simp)).2
      have hfu2 : passesFilters bd pfx u2 = true :=
        (goodPath_mem web bd pfx md seedc hl u2 (by rw [hl2]; simp)).1
      have hdOk : depthOk md dp = true := depthOk_mono hdp hs.1
      rcases hCLOS (p, dp) hpd hgoodp hdOk u2 hs.2 hfu2 with hinv | hinq
      · exact absurd (List.mem_append_left _ hinv) hu2
      · simp only [List.map_cons] at hinq
        rcases List.mem_cons.mp hinq with heq | hrest
        · exact absurd (by rw [heq]; exact List.mem_append_right _ (by simp))
            hu2
        · obtain ⟨it2, hit2, hurl⟩ := List.mem_map.mp hrest
          exact Or.inr ⟨it2, hit2, hurl⟩
    · -- `p` is the dequeued URL itself
      simp only [List.mem_singleton] at hpitem
      subst hpitem
      refine Or.inl ⟨depthOk_mono ?_ hs.1, hs.2⟩
      rw [hlen]
      omega

/-- Completeness of the crawl loop: as long as the page budget is not
exhausted, every URL reachable from the seed through good, filter-passing
pages ends up stored.  The six hypotheses are the loop invariant: frontier
URLs are distinct, frontier depths are two-level monotone, every good path
has its first unprocessed node waiting in the frontier at a depth bounded by
its position, every processed good page's eligible links are processed or
pending, processed depths are bounded by path positions, and `pages` holds
exactly the good processed URLs. -/
theorem crawlLoop_complete (web : Web) (bd : String) (pfx : Option String)
    (mp : Nat) (md : Option Nat) (seedc : String) :
    ∀ (q : List QItem) (procd : List (String × Nat)) (pages : List PageR)
      (al : List LinkR) (deq enq : List String),
      (q.map QItem.url).Nodup →
      List.Pairwise qRel q →
      (∀ l, goodPath web bd pfx md seedc l = true →
        (∀ v ∈ l, v ∈ procd.map Prod.fst) ∨
        ∃ pre u post, l = pre ++ u :: post ∧
          (∀ v ∈ pre, v ∈ procd.map Prod.fst) ∧
          u ∉ procd.map Prod.fst ∧
          ∃ it ∈ q, it.url = u ∧ it.depth ≤ pre.length) →
      (∀ pd ∈ procd, goodUrl web pd.1 = true → depthOk md pd.2 = true →
        ∀ v ∈ canonLinks web pd.1, passesFilters bd pfx v = true →
          v ∈ procd.map Prod.fst ∨ v ∈ q.map QItem.url) →
      (∀ (A : List String) (u : String),
        goodPath web bd pfx md seedc (A ++ [u]) = true →
        ∀ d, (u, d) ∈ procd → d ≤ A.length) →
      pages.map PageR.url =
        (procd.filter (fun pd => goodUrl web pd.1)).map Prod.fst →
      (crawlLoop web bd pfx mp md q procd pages al deq enq).pages.length < mp →
      ∀ u0, ReachGood web bd pfx md seedc u0 →
        u0 ∈ (crawlLoop web bd pfx mp md q procd pages al deq enq).pages.map
          PageR.url := by
  intro q procd pages al deq enq
  induction q, procd, pages, al, deq, enq using crawlLoop.induct web bd pfx mp md with
  | case1 procd pages al deq enq =>
    intro hQN hQI hPATH hCLOS hPROCD hPAGES hlt u0 hreach
    obtain ⟨lpath, hgp⟩ := hreach
    rcases hPATH (lpath ++ [u0]) hgp with hall |
      ⟨pre, u, post, hdec, hprev, hunv, it, hitq, hiturl, hitdep⟩
    · have huv : u0 ∈ procd.map Prod.fst := hall u0 (by simp)
      have hgood : goodUrl web u0 = true :=
        (goodPath_mem web bd pfx md seedc hgp u0 (by simp)).2
      obtain ⟨⟨u1, d1⟩, hpd, hpd1⟩ := List.mem_map.mp huv
      simp only at hpd1
      subst hpd1
      rw [crawlLoop_nil]
      show u1 ∈ pages.map PageR.url
      rw [hPAGES]
      exact List.mem_map.mpr ⟨(u1, d1), List.mem_filter.mpr ⟨hpd, hgood⟩, rfl⟩
    · simp at hitq
  | case2 item rest procd pages al deq enq h hv ih =>
    intro hQN hQI hPATH hCLOS hPROCD hPAGES hlt u0 hreach
    rw [crawlLoop_visited web bd pfx mp md item rest procd pages al deq enq
      h hv] at hlt ⊢
    refine ih ?_ ?_ ?_ ?_ hPROCD hPAGES hlt u0 hreach
    · simp only [List.map_cons] at hQN
      exact (List.nodup_cons.mp hQN).2
    · exact (List.pairwise_cons.mp hQI).2
    · intro l hl
      rcases hPATH l hl with hall |
        ⟨pre, u, post, hdec, hprev, hunv, it, hitq, hiturl, hitdep⟩
      · exact Or.inl hall
      · refine Or.inr ⟨pre, u, post, hdec, hprev, hunv, it, ?_, hiturl, hitdep⟩
        rcases List.mem_cons.mp hitq with h1 | h1
        · exfalso
          apply hunv
          rw [← hiturl, h1]
          exact hv
        · exact h1
    · intro pd hpd hg hdOk v hvc hvf
      rcases hCLOS pd hpd hg hdOk v hvc hvf with hL | hR
      · exact Or.inl hL
      · simp only [List.map_cons] at hR
        rcases List.mem_cons.mp hR with heq | hrest
        · exact Or.inl (heq.symm ▸ hv)
        · exact Or.inr hrest
  | case3 item rest procd pages al deq enq h hv hd ih =>
    intro hQN hQI hPATH hCLOS hPROCD hPAGES hlt u0 hreach
    rw [crawlLoop_domain web bd pfx mp md item rest procd pages al deq enq
      h hv hd] at hlt ⊢
    have hbeq : ((urlparse item.url).netloc == bd) = false :=
      beq_eq_false_iff_ne.mpr hd
    have hpf : passesFilters bd pfx item.url = false := by
      simp [passesFilters, hbeq]
    refine ih ?_ ?_ ?_ ?_ hPROCD hPAGES hlt u0 hreach
    · simp only [List.map_cons] at hQN
      exact (List.nodup_cons.mp hQN).2
    · exact (List.pairwise_cons.mp hQI).2
    · intro l hl
      rcases hPATH l hl with hall |
        ⟨pre, u, post, hdec, hprev, hunv, it, hitq, hiturl, hitdep⟩
      · exact Or.inl hall
      · refine Or.inr ⟨pre, u, post, hdec, hprev, hunv, it, ?_, hiturl, hitdep⟩
        rcases List.mem_cons.mp hitq with h1 | h1
        · exfalso
          have hufilt :=
            (goodPath_mem web bd pfx md seedc hl u (by rw [hdec]; simp)).1
          rw [← hiturl, h1] at hufilt
          rw [hpf] at hufilt
          simp at hufilt
        · exact h1
    · intro pd hpd hg hdOk v hvc hvf
      rcases hCLOS pd hpd hg hdOk v hvc hvf with hL | hR
      · exact Or.inl hL
      · simp only [List.map_cons] at hR
        rcases List.mem_cons.mp hR with heq | hrest
        · exfalso
          rw [heq, hpf] at hvf
          simp at hvf
        · exact Or.inr hrest
  | case4 item rest procd pages al deq enq h hv hd hp ih =>
    intro hQN hQI hPATH hCLOS hPROCD hPAGES hlt u0 hreach
    rw [crawlLoop_pfx web bd pfx mp md item rest procd pages al deq enq
      h hv hd hp] at hlt ⊢
    have hpf : passesFilters bd pfx item.url = false := by
      simp [passesFilters, hp]
    refine ih ?_ ?_ ?_ ?_ hPROCD hPAGES hlt u0 hreach
    · simp only [List.map_cons] at hQN
      exact (List.nodup_cons.mp hQN).2
    · exact (List.pairwise_cons.mp hQI).2
    · intro l hl
      rcases hPATH l hl with hall |
        ⟨pre, u, post, hdec, hprev, hunv, it, hitq, hiturl, hitdep⟩
      · exact Or.inl hall
      · refine Or.inr ⟨pre, u, post, hdec, hprev, hunv, it, ?_, hiturl, hitdep⟩
        rcases List.mem_cons.mp hitq with h1 | h1
        · exfalso
          have hufilt :=
            (goodPath_mem web bd pfx md seedc hl u (by rw [hdec]; simp)).1
          rw [← hiturl, h1] at hufilt
          rw [hpf] at hufilt
          simp at hufilt
        · exact h1
    · intro pd hpd hg hdOk v hvc hvf
      rcases hCLOS pd hpd hg hdOk v hvc hvf with hL | hR
      · exact Or.inl hL
      · simp only [List.map_cons] at hR
        rcases List.mem_cons.mp hR with heq | hrest
        · exfalso
          rw [heq, hpf] at hvf
          simp at hvf
        · exact Or.inr hrest
  | case5 item rest procd pages al deq enq h hv hd hp title content links hw hc hdep e ih =>
    intro hQN hQI hPATH hCLOS hPROCD hPAGES hlt u0 hreach
    rw [crawlLoop_page_exp web bd pfx mp md item rest procd pages al deq enq
      h hv hd hp title content links hw hc hdep] at hlt ⊢
    have hv' : (procd ++ [(item.url, item.depth)]).map Prod.fst =
        procd.map Prod.fst ++ [item.url] := by simp
    have hQNt : (rest.map QItem.url).Nodup := by
      simp only [List.map_cons] at hQN
      exact (List.nodup_cons.mp hQN).2
    have hitem_notin : item.url ∉ rest.map QItem.url := by
      simp only [List.map_cons] at hQN
      exact (List.nodup_cons.mp hQN).1
    have hQIt : List.Pairwise qRel rest := (List.pairwise_cons.mp hQI).2
    have hQIh : ∀ it ∈ rest, qRel item it := (List.pairwise_cons.mp hQI).1
    have hgt : goodUrl web item.url = true := by
      simp only [goodUrl, hw]
      exact decide_eq_true hc
    obtain ⟨A, hEeq, hA⟩ := enqueueLinks_split
      (procd.map Prod.fst ++ [item.url]) item.depth item.url links rest al enq
    have hbound : ∀ it2 ∈ (enqueueLinks (procd.map Prod.fst ++ [item.url])
        item.depth item.url links rest al enq).1,
        it2.depth ≤ item.depth + 1 := by
      intro it2 hit2
      rw [hEeq] at hit2
      rcases List.mem_append.mp hit2 with h1 | h2
      · exact (hQIh it2 h1).2
      · rw [hA it2 h2]
    refine ih ?_ ?_ ?_ ?_ ?_ ?_ hlt u0 hreach
    · exact enqueueLinks_nodup _ _ _ _ _ _ _ hQNt
    · exact (enqueueLinks_pairwise _ _ _ _ _ _ _ hQIh hQIt).2
    · intro l hl
      rcases hPATH l hl with hall |
        ⟨pre, u, post, hdec, hprev, hunv, it, hitq, hiturl, hitdep⟩
      · refine Or.inl fun v hvl => ?_
        rw [hv']
        exact List.mem_append_left _ (hall v hvl)
      · by_cases hui : u = item.url
        · subst hui
          have hit_item : it = item := by
            rcases List.mem_cons.mp hitq with h1 | h2
            · exact h1
            · exact absurd (List.mem_map.mpr ⟨it, h2, hiturl⟩) hitem_notin
          have hitd2 : item.depth ≤ pre.length := by
            rw [← hit_item]
            exact hitdep
          rcases list_first_not_mem (procd.map Prod.fst ++ [item.url]) post
            with hall2 | ⟨pre2, u2, post2, hpost, hpre2, hu2⟩
          · refine Or.inl ?_
            intro v hvl
            rw [hv']
            rw [hdec] at hvl
            rcases List.mem_append.mp hvl with h1 | h2
            · exact List.mem_append_left _ (hprev v h1)
            · rcases List.mem_cons.mp h2 with rfl | h3
              · exact List.mem_append_right _ (by simp)
              · exact hall2 v h3
          · subst hpost
            have hprenew : ∀ v ∈ pre ++ item.url :: pre2,
                v ∈ (procd ++ [(item.url, item.depth)]).map Prod.fst := by
              intro v hv1
              rw [hv']
              rcases List.mem_append.mp hv1 with h1 | h2
              · exact List.mem_append_left _ (hprev v h1)
              · rcases List.mem_cons.mp h2 with rfl | h3
                · exact List.mem_append_right _ (by simp)
                · exact hpre2 v h3
            have hlen : (pre ++ item.url :: pre2).length =
                pre.length + 1 + pre2.length := by
              simp only [List.length_append, List.length_cons]
              omega
            rcases chain_extend web bd pfx md seedc procd item rest hQI hCLOS
              hPROCD pre pre2 post2 u2 l hl hdec hpre2 hu2 hitd2 with
              ⟨_, hcanon⟩ | ⟨it2, hit2, hurl⟩
            · have hcanon' : u2 ∈ links.map (fun lnk => normalize_url lnk.url) := by
                simpa [canonLinks, hw] using hcanon
              obtain ⟨lnk, hlnk, hlnkeq⟩ := List.mem_map.mp hcanon'
              have hcov := enqueueLinks_covers
                (procd.map Prod.fst ++ [item.url]) item.depth item.url links
                rest al enq lnk hlnk
              rw [hlnkeq] at hcov
              rcases hcov with h1 | h2
              · exact absurd h1 hu2
              · obtain ⟨it2, hit2E, hurl2⟩ := List.mem_map.mp h2
                refine Or.inr ⟨pre ++ item.url :: pre2, u2, post2,
                  by rw [hdec]; simp, hprenew, by rw [hv']; exact hu2,
                  it2, hit2E, hurl2, ?_⟩
                have hb := hbound it2 hit2E
                rw [hlen]
                omega
            · refine Or.inr ⟨pre ++ item.url :: pre2, u2, post2,
                by rw [hdec]; simp, hprenew, by rw [hv']; exact hu2,
                it2, enqueueLinks_sub _ _ _ _ _ _ _ it2 hit2, hurl, ?_⟩
              have hb := (hQIh it2 hit2).2
              rw [hlen]
              omega
        · have hitrest : it ∈ rest := by
            rcases List.mem_cons.mp hitq with h1 | h1
            · exact absurd (h1 ▸ hiturl).symm hui
            · exact h1
          refine Or.inr ⟨pre, u, post, hdec, ?_, ?_, it,
            enqueueLinks_sub _ _ _ _ _ _ _ it hitrest, hiturl, hitdep⟩
          · intro v hv1
            rw [hv']
            exact List.mem_append_left _ (hprev v hv1)
          · rw [hv']
            simp only [List.mem_append, List.mem_singleton]
            rintro (h1 | h2)
            exacts [hunv h1, hui h2]
    · intro pd hpd hg hdOk v hvc hvf
      rcases List.mem_append.mp hpd with h1 | h2
      · rcases hCLOS pd h1 hg hdOk v hvc hvf with hL | hR
        · refine Or.inl ?_
          rw [hv']
          exact List.mem_append_left _ hL
        · simp only [List.map_cons] at hR
          rcases List.mem_cons.mp hR with heq | hrest
          · refine Or.inl ?_
            rw [hv', heq]
            exact List.mem_append_right _ (by simp)
          · exact Or.inr (enqueueLinks_sub_url _ _ _ _ _ _ _ _ hrest)
      · simp only [List.mem_singleton] at h2
        subst h2
        have hvc' : v ∈ links.map (fun lnk => normalize_url lnk.url) := by
          simpa [canonLinks, hw] using hvc
        obtain ⟨lnk, hlnk, hlnkeq⟩ := List.mem_map.mp hvc'
        have hcov := enqueueLinks_covers (procd.map Prod.fst ++ [item.url])
          item.depth item.url links rest al enq lnk hlnk
        rw [hlnkeq] at hcov
        rcases hcov with h1 | h2
        · refine Or.inl ?_
          rw [hv']
          exact h1
        · exact Or.inr h2
    · intro A0 u hgpA d hd2
      rcases List.mem_append.mp hd2 with h1 | h2
      · exact hPROCD A0 u hgpA d h1
      · simp only [List.mem_singleton, Prod.mk.injEq] at h2
        obtain ⟨hu2e, hd2e⟩ := h2
        subst hu2e
        subst hd2e
        rcases hPATH (A0 ++ [item.url]) hgpA with hall |
          ⟨pre3, u3, post3, hdec3, _, hu3, it3, hit3, hurl3, hd3⟩
        · exact absurd (hall item.url (by simp)) hv
        · have hlen3 : pre3.length ≤ A0.length := by
            have hcl := congrArg List.length hdec3
            simp at hcl
            omega
          have hdep3 : item.depth ≤ pre3.length := by
            rcases List.mem_cons.mp hit3 with h1 | h1
            · rw [← h1]
              exact hd3
            · have h5 := (hQIh it3 h1).1
              omega
          omega
    · have hsingle : ([(⟨item.url, title, content⟩ : PageR)].map PageR.url) =
          (([(item.url, item.depth)].filter
            (fun pd => goodUrl web pd.1)).map Prod.fst) := by
        simp [List.filter_cons, hgt]
      rw [List.map_append, List.filter_append, List.map_append, hPAGES,
        hsingle]
  | case6 item rest procd pages al deq enq h hv hd hp title content links hw hc hdep ih =>
    intro hQN hQI hPATH hCLOS hPROCD hPAGES hlt u0 hreach
    rw [crawlLoop_page_noexp web bd pfx mp md item rest procd pages al deq enq
      h hv hd hp title content links hw hc hdep] at hlt ⊢
    have hv' : (procd ++ [(item.url, item.depth)]).map Prod.fst =
        procd.map Prod.fst ++ [item.url] := by simp
    have hQNt : (rest.map QItem.url).Nodup := by
      simp only [List.map_cons] at hQN
      exact (List.nodup_cons.mp hQN).2
    have hitem_notin : item.url ∉ rest.map QItem.url := by
      simp only [List.map_cons] at hQN
      exact (List.nodup_cons.mp hQN).1
    have hQIt : List.Pairwise qRel rest := (List.pairwise_cons.mp hQI).2
    have hQIh : ∀ it ∈ rest, qRel item it := (List.pairwise_cons.mp hQI).1
    have hgt : goodUrl web item.url = true := by
      simp only [goodUrl, hw]
      exact decide_eq_true hc
    refine ih hQNt hQIt ?_ ?_ ?_ ?_ hlt u0 hreach
    · intro l hl
      rcases hPATH l hl with hall |
        ⟨pre, u, post, hdec, hprev, hunv, it, hitq, hiturl, hitdep⟩
      · refine Or.inl fun v hvl => ?_
        rw [hv']
        exact List.mem_append_left _ (hall v hvl)
      · by_cases hui : u = item.url
        · subst hui
          have hit_item : it = item := by
            rcases List.mem_cons.mp hitq with h1 | h2
            · exact h1
            · exact absurd (List.mem_map.mpr ⟨it, h2, hiturl⟩) hitem_notin
          have hitd2 : item.depth ≤ pre.length := by
            rw [← hit_item]
            exact hitdep
          rcases list_first_not_mem (procd.map Prod.fst ++ [item.url]) post
            with hall2 | ⟨pre2, u2, post2, hpost, hpre2, hu2⟩
          · refine Or.inl ?_
            intro v hvl
            rw [hv']
            rw [hdec] at hvl
            rcases List.mem_append.mp hvl with h1 | h2
            · exact List.mem_append_left _ (hprev v h1)
            · rcases List.mem_cons.mp h2 with rfl | h3
              · exact List.mem_append_right _ (by simp)
              · exact hall2 v h3
          · subst hpost
            have hprenew : ∀ v ∈ pre ++ item.url :: pre2,
                v ∈ (procd ++ [(item.url, item.depth)]).map Prod.fst := by
              intro v hv1
              rw [hv']
              rcases List.mem_append.mp hv1 with h1 | h2
              · exact List.mem_append_left _ (hprev v h1)
              · rcases List.mem_cons.mp h2 with rfl | h3
                · exact List.mem_append_right _ (by simp)
                · exact hpre2 v h3
            have hlen : (pre ++ item.url :: pre2).length =
                pre.length + 1 + pre2.length := by
              simp only [List.length_append, List.length_cons]
              omega
            rcases chain_extend web bd pfx md seedc procd item rest hQI hCLOS
              hPROCD pre pre2 post2 u2 l hl hdec hpre2 hu2 hitd2 with
              ⟨hdOk2, _⟩ | ⟨it2, hit2, hurl⟩
            · exact absurd hdOk2 hdep
            · refine Or.inr ⟨pre ++ item.url :: pre2, u2, post2,
                by rw [hdec]; simp, hprenew, by rw [hv']; exact hu2,
                it2, hit2, hurl, ?_⟩
              have hb := (hQIh it2 hit2).2
              rw [hlen]
              omega
        · have hitrest : it ∈ rest := by
            rcases List.mem_cons.mp hitq with h1 | h1
            · exact absurd (h1 ▸ hiturl).symm hui
            · exact h1
          refine Or.inr ⟨pre, u, post, hdec, ?_, ?_, it, hitrest, hiturl,
            hitdep⟩
          · intro v hv1
            rw [hv']
            exact List.mem_append_left _ (hprev v hv1)
          · rw [hv']
            simp only [List.mem_append, List.mem_singleton]
            rintro (h1 | h2)
            exacts [hunv h1, hui h2]
    · intro pd hpd hg hdOk v hvc hvf
      rcases List.mem_append.mp hpd with h1 | h2
      · rcases hCLOS pd h1 hg hdOk v hvc hvf with hL | hR
        · refine Or.inl ?_
          rw [hv']
          exact List.mem_append_left _ hL
        · simp only [List.map_cons] at hR
          rcases List.mem_cons.mp hR with heq | hrest
          · refine Or.inl ?_
            rw [hv', heq]
            exact List.mem_append_right _ (by simp)
          · exact Or.inr hrest
      · simp only [List.mem_singleton] at h2
        subst h2
        exact absurd hdOk hdep
    · intro A0 u hgpA d hd2
      rcases List.mem_append.mp hd2 with h1 | h2
      · exact hPROCD A0 u hgpA d h1
      · simp only [List.mem_singleton, Prod.mk.injEq] at h2
        obtain ⟨hu2e, hd2e⟩ := h2
        subst hu2e
        subst hd2e
        rcases hPATH (A0 ++ [item.url]) hgpA with hall |
          ⟨pre3, u3, post3, hdec3, _, hu3, it3, hit3, hurl3, hd3⟩
        · exact absurd (hall item.url (by simp)) hv
        · have hlen3 : pre3.length ≤ A0.length := by
            have hcl := congrArg List.length hdec3
            simp at hcl
            omega
          have hdep3 : item.depth ≤ pre3.length := by
            rcases List.mem_cons.mp hit3 with h1 | h1
            · rw [← h1]
              exact hd3
            · have h5 := (hQIh it3 h1).1
              omega
          omega
    · have hsingle : ([(⟨item.url, title, content⟩ : PageR)].map PageR.url) =
          (([(item.url, item.depth)].filter
            (fun pd => goodUrl web pd.1)).map Prod.fst) := by
        simp [List.filter_cons, hgt]
      rw [List.map_append, List.filter_append, List.map_append, hPAGES,
        hsingle]
  | case7 item rest procd pages al deq enq h hv hd hp title content links hw hc ih =>
    intro hQN hQI hPATH hCLOS hPROCD hPAGES hlt u0 hreach
    rw [crawlLoop_empty web bd pfx mp md item rest procd pages al deq enq
      h hv hd hp title content links hw hc] at hlt ⊢
    have hce : pyStrip content = "" := not_not.mp hc
    have hgf : goodUrl web item.url = false := by
      simp [goodUrl, hw, hce]
    have hv' : (procd ++ [(item.url, item.depth)]).map Prod.fst =
        procd.map Prod.fst ++ [item.url] := by simp
    refine ih ?_ ?_ ?_ ?_ ?_ ?_ hlt u0 hreach
    · simp only [List.map_cons] at hQN
      exact (List.nodup_cons.mp hQN).2
    · exact (List.pairwise_cons.mp hQI).2
    · intro l hl
      rcases hPATH l hl with hall |
        ⟨pre, u, post, hdec, hprev, hunv, it, hitq, hiturl, hitdep⟩
      · refine Or.inl fun v hvl => ?_
        rw [hv']
        exact List.mem_append_left _ (hall v hvl)
      · have hune : u ≠ item.url := by
          intro hue
          have hug := (goodPath_mem web bd pfx md seedc hl u
            (by rw [hdec]; simp)).2
          rw [hue, hgf] at hug
          simp at hug
        have hitrest : it ∈ rest := by
          rcases List.mem_cons.mp hitq with h1 | h1
          · exact absurd (h1 ▸ hiturl).symm hune
          · exact h1
        refine Or.inr ⟨pre, u, post, hdec, ?_, ?_, it, hitrest, hiturl,
          hitdep⟩
        · intro v hv1
          rw [hv']
          exact List.mem_append_left _ (hprev v hv1)
        · rw [hv']
          simp only [List.mem_append, List.mem_singleton]
          rintro (h1 | h2)
          exacts [hunv h1, hune h2]
    · intro pd hpd hg hdOk v hvc hvf
      rcases List.mem_append.mp hpd with h1 | h2
      · rcases hCLOS pd h1 hg hdOk v hvc hvf with hL | hR
        · refine Or.inl ?_
          rw [hv']
          exact List.mem_append_left _ hL
        · simp only [List.map_cons] at hR
          rcases List.mem_cons.mp hR with heq | hrest
          · refine Or.inl ?_
            rw [hv', heq]
            exact List.mem_append_right _ (by simp)
          · exact Or.inr hrest
      · simp only [List.mem_singleton] at h2
        subst h2
        exact absurd hg (by simp [hgf])
    · intro A0 u hgpA d hd2
      rcases List.mem_append.mp hd2 with h1 | h2
      · exact hPROCD A0 u hgpA d h1
      · exfalso
        simp only [List.mem_singleton, Prod.mk.injEq] at h2
        have hug := (goodPath_mem web bd pfx md seedc hgpA u (by simp)).2
        rw [h2.1, hgf] at hug
        simp at hug
    · simpa [List.filter_append, hgf] using hPAGES
  | case8 item rest procd pages al deq enq h hv hd hp hw ih =>
    intro hQN hQI hPATH hCLOS hPROCD hPAGES hlt u0 hreach
    rw [crawlLoop_fail web bd pfx mp md item rest procd pages al deq enq
      h hv hd hp hw] at hlt ⊢
    have hgf : goodUrl web item.url = false := by
      simp [goodUrl, hw]
    have hv' : (procd ++ [(item.url, item.depth)]).map Prod.fst =
        procd.map Prod.fst ++ [item.url] := by simp
    refine ih ?_ ?_ ?_ ?_ ?_ ?_ hlt u0 hreach
    · simp only [List.map_cons] at hQN
      exact (List.nodup_cons.mp hQN).2
    · exact (List.pairwise_cons.mp hQI).2
    · intro l hl
      rcases hPATH l hl with hall |
        ⟨pre, u, post, hdec, hprev, hunv, it, hitq, hiturl, hitdep⟩
      · refine Or.inl fun v hvl => ?_
        rw [hv']
        exact List.mem_append_left _ (hall v hvl)
      · have hune : u ≠ item.url := by
          intro hue
          have hug := (goodPath_mem web bd pfx md seedc hl u
            (by rw [hdec]; simp)).2
          rw [hue, hgf] at hug
          simp at hug
        have hitrest : it ∈ rest := by
          rcases List.mem_cons.mp hitq with h1 | h1
          · exact absurd (h1 ▸ hiturl).symm hune
          · exact h1
        refine Or.inr ⟨pre, u, post, hdec, ?_, ?_, it, hitrest, hiturl,
          hitdep⟩
        · intro v hv1
          rw [hv']
          exact List.mem_append_left _ (hprev v hv1)
        · rw [hv']
          simp only [List.mem_append, List.mem_singleton]
          rintro (h1 | h2)
          exacts [hunv h1, hune h2]
    · intro pd hpd hg hdOk v hvc hvf
      rcases List.mem_append.mp hpd with h1 | h2
      · rcases hCLOS pd h1 hg hdOk v hvc hvf with hL | hR
        · refine Or.inl ?_
          rw [hv']
          exact List.mem_append_left _ hL
        · simp only [List.map_cons] at hR
          rcases List.mem_cons.mp hR with heq | hrest
          · refine Or.inl ?_
            rw [hv', heq]
            exact List.mem_append_right _ (by simp)
          · exact Or.inr hrest
      · simp only [List.mem_singleton] at h2
        subst h2
        exact absurd hg (by simp [hgf])
    · intro A0 u hgpA d hd2
      rcases List.mem_append.mp hd2 with h1 | h2
      · exact hPROCD A0 u hgpA d h1
      · exfalso
        simp only [List.mem_singleton, Prod.mk.injEq] at h2
        have hug := (goodPath_mem web bd pfx md seedc hgpA u (by simp)).2
        rw [h2.1, hgf] at hug
        simp at hug
    · simpa [List.filter_append, hgf] using hPAGES
  | case9 item rest procd pages al deq enq h =>
    intro hQN hQI hPATH hCLOS hPROCD hPAGES hlt u0 hreach
    rw [crawlLoop_budget web bd pfx mp md item rest procd pages al deq enq
      h] at hlt
    exact absurd hlt h

/-! ### Claim C1 -/

/-- C1: for every input graph and every `N ≥ 1`, running `crawl` with
`max_pages = N` returns a pages sequence of length at most `N`, and of
length exactly `N` whenever the set of same-domain pages reachable from the
seed (respecting the prefix and depth filters, each with non-empty extracted
content) has at least `N` members. -/
theorem c1_page_budget (web : Web) (startUrl : String) (N : Nat)
    (md : Option Nat) (pfx : Option String) (hN : 1 ≤ N) :
    (crawl web startUrl N md pfx).pages.length ≤ N ∧
    (∀ us : List String, us.Nodup → N ≤ us.length →
      (∀ u ∈ us, ReachGood web (urlparse startUrl).netloc pfx md
        (normalize_url startUrl) u) →
      (crawl web startUrl N md pfx).pages.length = N) := by
  have hle : (crawl web startUrl N md pfx).pages.length ≤ N := by
    simp only [crawl]
    exact crawlLoop_pages_le web (urlparse startUrl).netloc pfx N md
      _ _ _ _ _ _ (by simp)
  refine ⟨hle, ?_⟩
  intro us hnd hlen hall
  by_contra hne
  have hlt : (crawl web startUrl N md pfx).pages.length < N :=
    lt_of_le_of_ne hle hne
  have hcomp : ∀ u0, ReachGood web (urlparse startUrl).netloc pfx md
      (normalize_url startUrl) u0 →
      u0 ∈ (crawl web startUrl N md pfx).pages.map PageR.url := by
    intro u0 hr
    simp only [crawl] at hlt ⊢
    refine crawlLoop_complete web (urlparse startUrl).netloc pfx N md
      (normalize_url startUrl) [⟨normalize_url startUrl, 0, none⟩] [] [] [] []
      [normalize_url startUrl] ?_ ?_ ?_ ?_ ?_ ?_ hlt u0 hr
    · simp
    · simp
    · intro l hl
      obtain ⟨rest, hleq, _, _, _⟩ := goodPath_head web
        (urlparse startUrl).netloc pfx md (normalize_url startUrl) hl
      exact Or.inr ⟨[], normalize_url startUrl, rest, by rw [hleq]; simp,
        by simp, by simp, ⟨normalize_url startUrl, 0, none⟩, by simp, rfl,
        by simp⟩
    · intro pd hpd
      simp at hpd
    · intro A u hgp d hd
      simp at hd
    · simp
  have hsub : us ⊆ (crawl web startUrl N md pfx).pages.map PageR.url :=
    fun u hu => hcomp u (hall u hu)
  have hsp := (hnd.subperm hsub).length_le
  rw [List.length_map] at hsp
  omega

/-- C1 witness: a two-page site crawled with budget 2 yields exactly 2
pages; the two reachable URLs are witnessed by explicit good paths. -/
theorem c1_witness :
    (crawl webC1 "https://a.com" 2 none none).pages.length = 2 := by
  refine (c1_page_budget webC1 "https://a.com" 2 none none (by decide)).2
    ["https://a.com", "https://a.com/b"] (by decide) (by decide) ?_
  intro u hu
  rcases List.mem_cons.mp hu with rfl | hu2
  · exact ⟨[], by decide⟩
  · rcases List.mem_cons.mp hu2 with rfl | hu3
    · exact ⟨["https://a.com"], by decide⟩
    · simp at hu3

/-! ### Idempotence of the body-cleaning mutation (towards C8) -/

mutual
theorem removeTagsN_idem (names : List String) (n : HNode) :
    removeTagsN names (removeTagsN names n) = removeTagsN names n :=
  match n with
  | HNode.text _ => rfl
  | HNode.comm _ => rfl
  | HNode.elem t a c ch => by
    simp only [removeTagsN]
    exact congrArg _ (removeTagsF_idem names ch)
theorem removeTagsF_idem (names : List String) (f : HForest) :
    removeTagsF names (removeTagsF names f) = removeTagsF names f :=
  match f with
  | HForest.nil => rfl
  | HForest.cons (HNode.text s) f => by
    simp only [removeTagsF]
    exact congrArg _ (removeTagsF_idem names f)
  | HForest.cons (HNode.comm s) f => by
    simp only [removeTagsF]
    exact congrArg _ (removeTagsF_idem names f)
  | HForest.cons (HNode.elem t a c ch) f => by
    by_cases h : t ∈ names
    · simp only [removeTagsF, if_pos h]
      exact removeTagsF_idem names f
    · simp only [removeTagsF, if_neg h]
      rw [removeTagsF_idem names ch, removeTagsF_idem names f]
end

mutual
theorem frbN_idem (t : String) (n n' b : HNode)
    (h : frbN t n = some (n', b)) : frbN t n' = some (n', b) :=
  match n with
  | HNode.text _ => by simp [frbN] at h
  | HNode.comm _ => by simp [frbN] at h
  | HNode.elem t' a c ch => by
    by_cases ht : (t' == t) = true
    · simp only [frbN, if_pos ht] at h
      obtain ⟨h1, h2⟩ := Prod.mk.injEq _ _ _ _ ▸ Option.some.inj h
      subst h1
      subst h2
      simp only [frbN, if_pos ht, removeTagsF_idem]
    · simp only [frbN, if_neg ht] at h
      rcases hfr : frbF t ch with _ | p
      · rw [hfr] at h
        simp at h
      · rw [hfr] at h
        obtain ⟨ch', b0⟩ := p
        simp only at h
        obtain ⟨h1, h2⟩ := Prod.mk.injEq _ _ _ _ ▸ Option.some.inj h
        subst h2
        have hidem := frbF_idem t ch ch' b0 hfr
        rw [← h1]
        simp only [frbN, if_neg ht, hidem]
theorem frbF_idem (t : String) (f f' : HForest) (b : HNode)
    (h : frbF t f = some (f', b)) : frbF t f' = some (f', b) :=
  match f with
  | HForest.nil => by simp [frbF] at h
  | HForest.cons n rest => by
    rcases hn : frbN t n with _ | p
    · rcases hr : frbF t rest with _ | q
      · simp only [frbF, hn, hr] at h
        cases h
      · obtain ⟨rest', b0⟩ := q
        simp only [frbF, hn, hr] at h
        obtain ⟨h1, h2⟩ := Prod.mk.injEq _ _ _ _ ▸ Option.some.inj h
        subst h2
        have hidem := frbF_idem t rest rest' b0 hr
        rw [← h1]
        simp only [frbF, hn, hidem]
    · obtain ⟨n', b0⟩ := p
      simp only [frbF, hn] at h
      obtain ⟨h1, h2⟩ := Prod.mk.injEq _ _ _ _ ▸ Option.some.inj h
      subst h2
      have hidem := frbN_idem t n n' b0 hn
      rw [← h1]
      simp only [frbF, hidem]
end

/-! ### Claim C8 -/

/-- C8 (counterexample): `is_js_rendered` is *not* side-effect free: on a
document whose body holds a script, the passed-in tree comes back with the
script subtree removed (the script/style decomposition happens on the
passed-in body, not on a copy). -/
theorem c8_counterexample :
    (is_js_rendered "" docC8).2 ≠ docC8 ∧
    (is_js_rendered "" docC8).2 =
      HNode.elem "[document]" [] [] (hf [HNode.elem "html" [] []
        (hf [HNode.elem "body" [] []
          (hf [HNode.elem "p" [] [] (hf [HNode.text "Hello world"])])])]) := by
  constructor
  · decide
  · decide

/-- C8 (amended): `is_js_rendered` is deterministic but mutates its
document argument, removing the script/style subtrees of its first body
element; the mutation is idempotent, so a repeated call on the raw HTML and
the already-mutated document returns the same verdict and changes nothing
further. -/
theorem c8_js_rendered_amended (html : String) (soup : HNode) :
    is_js_rendered html (is_js_rendered html soup).2 =
      is_js_rendered html soup := by
  match soup with
  | HNode.text s => rfl
  | HNode.comm s => rfl
  | HNode.elem t a c ch =>
    rcases hfr : frbF "body" ch with _ | p
    · simp [is_js_rendered, hfr]
    · obtain ⟨ch', b⟩ := p
      simp only [is_js_rendered, hfr]
      have hidem := frbF_idem "body" ch ch' b hfr
      simp only [is_js_rendered, hidem]

/-! ### Claim C9 -/

/-- C9 (counterexample): `get_page_title` can return the empty string: a
whitespace-only `<title>` string is truthy before stripping, so the title
branch is taken and its stripped value — the empty string — is returned. -/
theorem c9_counterexample : get_page_title docC9 = "" := by
  decide

/-- C9 (amended): when the document's first `<title>` has a (non-empty)
string, `get_page_title` returns it stripped — which is empty for a
whitespace-only title; when the document has neither a `<title>` nor an
`<h1>`, the result (the `og:title` content or the fixed default) is a
non-empty string. -/
theorem c9_title_amended :
    (∀ (soup tt : HNode) (s : String),
      findIn (tagIs "title") soup = some tt → nodeString tt = some s →
      s ≠ "" → get_page_title soup = pyStrip s) ∧
    (∀ soup : HNode, findIn (tagIs "title") soup = none →
      findIn (tagIs "h1") soup = none → get_page_title soup ≠ "") := by
  constructor
  · intro soup tt s hft hs hne
    have hbeq : (s == "") = false := beq_eq_false_iff_ne.mpr hne
    simp [get_page_title, hft, hs, hbeq]
  · intro soup hft hh1
    simp only [get_page_title, hft, titleH1, hh1, titleOg]
    rcases hog : findIn (fun n => tagOf n == "meta" &&
        attrOf n "property" == some "og:title") soup with _ | mt
    · simp
    · rcases hc : attrOf mt "content" with _ | c
      · simp [hc]
      · by_cases hce : c = ""
        · subst hce
          simp [hc]
        · simp [hc, hce]

/-- C9 witness: the amended title rule applied to a concrete document whose
title strips to `"Hello"`. -/
theorem c9_witness : get_page_title docC9b = pyStrip "  Hello  " :=
  c9_title_amended.1 docC9b
    (HNode.elem "title" [] [] (hf [HNode.text "  Hello  "])) "  Hello  "
    (by decide) (by decide) (by decide)

/-! ### Claim C10 -/

/-- C10: `extract_text` never mutates its input: the document tree
observable after the call is the one passed in, because line 204 rebinds
the local name to a re-parsed copy before any removal happens.  The second
conjunct shows the frame property is not vacuous: the removal pipeline run
inside the call is not the identity on a document with a junk subtree. -/
theorem c10_extract_text_frame :
    (∀ soup : HNode, (extract_text_st soup).2 = soup) ∧
    removeTagsN junkTags docC10 ≠ docC10 :=
  ⟨fun _ => rfl, by decide⟩

/-! ### Paths identify elements (towards C7)

The pathed preorder traversal `descsN`/`descsF` assigns every element its
child-index path; these lemmas show a path determines its element (so paths
faithfully model Python's `id()`), and that the traversal of an element's
subtree is contained in the traversal it came from. -/

mutual
theorem descsN_shape (pt : String) (pth : List Nat) (n : HNode) :
    ∀ e ∈ descsN pt pth n, e.1 = pth ∨ ∃ j r, e.1 = pth ++ j :: r :=
  match n with
  | HNode.text _ => by simp [descsN]
  | HNode.comm _ => by simp [descsN]
  | HNode.elem t a c ch => by
    intro e he
    simp only [descsN, List.mem_cons] at he
    rcases he with rfl | he
    · exact Or.inl rfl
    · obtain ⟨j, r, _, hq⟩ := descsF_shape t pth 0 ch e he
      exact Or.inr ⟨j, r, hq⟩
theorem descsF_shape (pt : String) (pth : List Nat) (i : Nat) (f : HForest) :
    ∀ e ∈ descsF pt pth i f, ∃ j r, i ≤ j ∧ e.1 = pth ++ j :: r :=
  match f with
  | HForest.nil => by simp [descsF]
  | HForest.cons n f2 => by
    intro e he
    simp only [descsF, List.mem_append] at he
    rcases he with he | he
    · rcases descsN_shape pt (pth ++ [i]) n e he with h1 | ⟨j, r, hq⟩
      · exact ⟨i, [], le_refl i, by rw [h1]⟩
      · refine ⟨i, j :: r, le_refl i, ?_⟩
        rw [hq]
        simp
    · obtain ⟨j, r, hj, hq⟩ := descsF_shape pt pth (i + 1) f2 e he
      exact ⟨j, r, by omega, hq⟩
end

theorem descsN_shape_cons (pt : String) (pth : List Nat) (i : Nat)
    (n : HNode) :
    ∀ e ∈ descsN pt (pth ++ [i]) n, ∃ r, e.1 = pth ++ i :: r := by
  intro e he
  rcases descsN_shape pt (pth ++ [i]) n e he with h1 | ⟨j, r, hq⟩
  · exact ⟨[], by rw [h1]⟩
  · refine ⟨j :: r, ?_⟩
    rw [hq]
    simp

mutual
theorem descsN_fn (pt : String) (pth : List Nat) (n : HNode) :
    ∀ e1 ∈ descsN pt pth n, ∀ e2 ∈ descsN pt pth n, e1.1 = e2.1 → e1 = e2 :=
  match n with
  | HNode.text _ => by simp [descsN]
  | HNode.comm _ => by simp [descsN]
  | HNode.elem t a c ch => by
    intro e1 h1 e2 h2 heq
    simp only [descsN, List.mem_cons] at h1 h2
    rcases h1 with rfl | h1 <;> rcases h2 with rfl | h2
    · rfl
    · exfalso
      obtain ⟨j, r, _, hq⟩ := descsF_shape t pth 0 ch e2 h2
      rw [hq] at heq
      have hl := congrArg List.length heq
      simp at hl
    · exfalso
      obtain ⟨j, r, _, hq⟩ := descsF_shape t pth 0 ch e1 h1
      rw [hq] at heq
      have hl := congrArg List.length heq
      simp at hl
    · exact descsF_fn t pth 0 ch e1 h1 e2 h2 heq
theorem descsF_fn (pt : String) (pth : List Nat) (i : Nat) (f : HForest) :
    ∀ e1 ∈ descsF pt pth i f, ∀ e2 ∈ descsF pt pth i f, e1.1 = e2.1 → e1 = e2 :=
  match f with
  | HForest.nil => by simp [descsF]
  | HForest.cons n f2 => by
    intro e1 h1 e2 h2 heq
    simp only [descsF, List.mem_append] at h1 h2
    rcases h1 with h1 | h1 <;> rcases h2 with h2 | h2
    · exact descsN_fn pt (pth ++ [i]) n e1 h1 e2 h2 heq
    · exfalso
      obtain ⟨r1, hq1⟩ := descsN_shape_cons pt pth i n e1 h1
      obtain ⟨j, r, hj, hq2⟩ := descsF_shape pt pth (i + 1) f2 e2 h2
      rw [hq1, hq2] at heq
      have hx := congrArg (List.drop pth.length) heq
      simp only [List.drop_left] at hx
      injection hx with hij _
      omega
    · exfalso
      obtain ⟨r1, hq1⟩ := descsN_shape_cons pt pth i n e2 h2
      obtain ⟨j, r, hj, hq2⟩ := descsF_shape pt pth (i + 1) f2 e1 h1
      rw [hq1, hq2] at heq
      have hx := congrArg (List.drop pth.length) heq
      simp only [List.drop_left] at hx
      injection hx with hij _
      omega
    · exact descsF_fn pt pth (i + 1) f2 e1 h1 e2 h2 heq
end

mutual
theorem descsN_closure (pt : String) (pth : List Nat) (n : HNode) :
    ∀ (q : List Nat) (pt2 t2 : String) (a2 : List (String × String))
      (c2 : List String) (ch2 : HForest),
      (q, pt2, HNode.elem t2 a2 c2 ch2) ∈ descsN pt pth n →
      ∀ e ∈ descsF t2 q 0 ch2, e ∈ descsN pt pth n :=
  match n with
  | HNode.text _ => by
    intro q pt2 t2 a2 c2 ch2 hm
    simp [descsN] at hm
  | HNode.comm _ => by
    intro q pt2 t2 a2 c2 ch2 hm
    simp [descsN] at hm
  | HNode.elem t a c ch => by
    intro q pt2 t2 a2 c2 ch2 hm e he
    simp only [descsN, List.mem_cons] at hm ⊢
    rcases hm with heq | hm
    · have hq : q = pth := congrArg (fun x => x.1) heq
      have hnd : HNode.elem t2 a2 c2 ch2 = HNode.elem t a c ch :=
        congrArg (fun x => x.2.2) heq
      injection hnd with ht _ _ hch
      subst hq
      subst ht
      subst hch
      exact Or.inr he
    · exact Or.inr (descsF_closure t pth 0 ch q pt2 t2 a2 c2 ch2 hm e he)
theorem descsF_closure (pt : String) (pth : List Nat) (i : Nat) (f : HForest) :
    ∀ (q : List Nat) (pt2 t2 : String) (a2 : List (String × String))
      (c2 : List String) (ch2 : HForest),
      (q, pt2, HNode.elem t2 a2 c2 ch2) ∈ descsF pt pth i f →
      ∀ e ∈ descsF t2 q 0 ch2, e ∈ descsF pt pth i f :=
  match f with
  | HForest.nil => by
    intro q pt2 t2 a2 c2 ch2 hm
    simp [descsF] at hm
  | HForest.cons n f2 => by
    intro q pt2 t2 a2 c2 ch2 hm e he
    simp only [descsF, List.mem_append] at hm ⊢
    rcases hm with hm | hm
    · exact Or.inl (descsN_closure pt (pth ++ [i]) n q pt2 t2 a2 c2 ch2 hm e he)
    · exact Or.inr (descsF_closure pt pth (i + 1) f2 q pt2 t2 a2 c2 ch2 hm e he)
end

/-! ### The extraction loop emits every pre/code/go block (C7) -/

theorem fold_lines_mono :
    ∀ (L : List (List Nat × String × HNode)) (seen : List (List Nat))
      (lines : List String),
      ∃ D, (L.foldl procEntry (seen, lines)).2 = lines ++ D := by
  intro L
  induction L with
  | nil =>
    intro seen lines
    exact ⟨[], by simp⟩
  | cons e L2 ih =>
    intro seen lines
    rw [List.foldl_cons]
    obtain ⟨D, hD⟩ := ih (procSeen seen e) (lines ++ procLine seen e)
    refine ⟨procLine seen e ++ D, ?_⟩
    have hstep : procEntry (seen, lines) e =
        (procSeen seen e, lines ++ procLine seen e) := rfl
    rw [hstep, hD, List.append_assoc]

theorem fold_emit (pt0 : String) (f0 : HForest) (q : List Nat)
    (ptX : String) (X : String) (hX : pyStrip X ≠ "") :
    ∀ (L : List (List Nat × String × HNode)) (seen : List (List Nat))
      (lines : List String),
      (∀ e ∈ L, e ∈ descsF pt0 [] 0 f0) →
      (q, ptX, preGo X) ∈ L →
      (q, ptX, preGo X) ∈ descsF pt0 [] 0 f0 →
      q ∉ seen →
      ("\n```go\n" ++ pyStrip X ++ "\n```\n") ∈
        (L.foldl procEntry (seen, lines)).2 := by
  intro L
  induction L with
  | nil =>
    intro seen lines _ hmem _ _
    simp at hmem
  | cons e L2 ih =>
    intro seen lines hD hmem hmemD hq
    rw [List.foldl_cons]
    have hstep : procEntry (seen, lines) e =
        (procSeen seen e, lines ++ procLine seen e) := rfl
    rw [hstep]
    by_cases he : e = (q, ptX, preGo X)
    · subst he
      have hraw : getTextRaw (preGo X) = X := rfl
      have hline : procLine seen (q, ptX, preGo X) =
          ["\n```go\n" ++ pyStrip X ++ "\n```\n"] := by
        simp only [procLine]
        rw [if_neg hq]
        show (if (pyStrip (getTextRaw (preGo X)) == "") = true then []
          else ["\n```" ++ langOf (preGo X) ++ "\n" ++
            pyStrip (getTextRaw (preGo X)) ++ "\n```\n"]) = _
        rw [hraw]
        rw [if_neg (by simpa using hX)]
        rfl
      rw [hline]
      obtain ⟨D, hD2⟩ := fold_lines_mono L2
        (procSeen seen (q, ptX, preGo X))
        (lines ++ ["\n```go\n" ++ pyStrip X ++ "\n```\n"])
      rw [hD2]
      simp
    · have hq' : q ∉ procSeen seen e := by
        by_cases hc1 : e.1 ∈ seen
        · simp only [procSeen]
          rw [if_pos hc1]
          exact hq
        · simp only [procSeen]
          rw [if_neg hc1]
          by_cases hc2 : (tagOf e.2.2 == "pre") = true
          · rw [if_pos hc2]
            intro hmem2
            rcases List.mem_append.mp hmem2 with h1 | h2
            · rcases List.mem_append.mp h1 with h3 | h4
              · exact hq h3
              · simp only [List.mem_singleton] at h4
                have hee : e = (q, ptX, preGo X) :=
                  descsF_fn pt0 [] 0 f0 e (hD e (by simp)) (q, ptX, preGo X)
                    hmemD (by rw [← h4])
                exact he hee
            · obtain ⟨ce, hcef, hce1⟩ := List.mem_map.mp h2
              obtain ⟨hcem, hcode⟩ := List.mem_filter.mp hcef
              obtain ⟨qe, pte, ne⟩ := e
              cases ne with
              | text s => simp [childrenOf, descsF] at hcem
              | comm s => simp [childrenOf, descsF] at hcem
              | elem t2 a2 c2 ch2 =>
                have hceD : ce ∈ descsF pt0 [] 0 f0 :=
                  descsF_closure pt0 [] 0 f0 qe pte t2 a2 c2 ch2
                    (hD _ (by simp)) ce hcem
                have hce_eq : ce = (q, ptX, preGo X) :=
                  descsF_fn pt0 [] 0 f0 ce hceD (q, ptX, preGo X) hmemD hce1
                rw [hce_eq] at hcode
                simp [preGo, tagOf, hf] at hcode
          · rw [if_neg hc2]
            exact hq
      have hmem2 : (q, ptX, preGo X) ∈ L2 := by
        rcases List.mem_cons.mp hmem with h1 | h1
        · exact absurd h1.symm he
        · exact h1
      exact ih (procSeen seen e) (lines ++ procLine seen e)
        (fun x hx => hD x (List.mem_cons_of_mem _ hx)) hmem2 hmemD hq'

/-! ### Claim C7 -/

/-- C7: for every document holding a
`<pre><code class="language-go">X</code></pre>` element with non-empty text
`X` under the selected content root (after junk and comment removal),
`extract_text` emits a fenced block tagged `go` whose body is exactly `X`
stripped, and its output is the newline-join of the emitted lines. -/
theorem c7_code_block (soup : HNode) (q : List Nat) (pt : String) (X : String)
    (hmem : (q, pt, preGo X) ∈
      descsF (tagOf (mainContent soup)) [] 0 (childrenOf (mainContent soup)))
    (hX : pyStrip X ≠ "") :
    ("\n```go\n" ++ pyStrip X ++ "\n```\n") ∈ extractLines (mainContent soup) ∧
    extract_text soup =
      String.intercalate "\n" (extractLines (mainContent soup)) := by
  have hinL : (q, pt, preGo X) ∈ extractEntries (mainContent soup) :=
    List.mem_filter.mpr ⟨hmem, by rfl⟩
  have hemit : ("\n```go\n" ++ pyStrip X ++ "\n```\n") ∈
      extractLines (mainContent soup) :=
    fold_emit (tagOf (mainContent soup)) (childrenOf (mainContent soup)) q pt
      X hX (extractEntries (mainContent soup)) [] []
      (fun e he => (List.mem_filter.mp he).1) hinL hmem (by simp)
  refine ⟨hemit, ?_⟩
  have hne : (extractLines (mainContent soup)).isEmpty = false := by
    rcases hl : extractLines (mainContent soup) with _ | ⟨a, l⟩
    · rw [hl] at hemit
      simp at hemit
    · rfl
  simp only [extract_text]
  rw [hne]
  simp

/-- C7 witness: the theorem applied to a concrete page whose body holds
`<h1>Guide</h1>` and a go-tagged pre/code block. -/
theorem c7_witness :
    ("\n```go\n" ++ pyStrip "package main" ++ "\n```\n") ∈
      extractLines (mainContent docC7) ∧
    extract_text docC7 =
      String.intercalate "\n" (extractLines (mainContent docC7)) :=
  c7_code_block docC7 [1] "body" "package main" (by decide) (by decide)

end Scraper
